import Mathlib

/-!
Verification of the Elastic B-Tree implementation (Go sources under
`internal/tree` and `pkg/config`).

The Go code manipulates a pointer graph of `Node` values; we embed it
shallowly as a heap: nodes live in a list indexed by `Nat` ids, a pointer is
an id, the nil pointer is `Option.none`, and Go pointer equality is id
equality.  Every Go function that can panic (explicitly through
`Logger.Panicf` or implicitly through an out-of-range slice index or nil
dereference) is embedded in an error monad; recursive functions additionally
take fuel, whose exhaustion is reported as a third kind of failure that is
distinct from both panics and recoverable Go `error` results.  Machine
integers are embedded as `Int` (keys, tree size, height) or `Nat` (list
lengths, degree after validation).
-/

namespace EBT

/-- Outcome of a fallible Go computation: `fatal` models a Go panic
(`Logger.Panicf`, nil dereference, slice index out of range), `err` models a
recoverable Go `error` return value, `fuelOut` models exhaustion of the
embedding's recursion fuel. -/
inductive Failure where
  | fatal (msg : String)
  | err (msg : String)
  | fuelOut
  deriving DecidableEq, Repr

/-- Result of a fallible Go computation. -/
abbrev Res (α : Type u) : Type u := Except Failure α

/-- Decidable equality of results, for concrete evaluations. -/
instance {ε : Type u} {α : Type v} [DecidableEq ε] [DecidableEq α] :
    DecidableEq (Except ε α) := fun x y =>
  match x, y with
  | .ok a, .ok b =>
    if h : a = b then isTrue (by rw [h])
    else isFalse (fun hh => by cases hh; exact h rfl)
  | .error e, .error f =>
    if h : e = f then isTrue (by rw [h])
    else isFalse (fun hh => by cases hh; exact h rfl)
  | .ok _, .error _ => isFalse (fun hh => by cases hh)
  | .error _, .ok _ => isFalse (fun hh => by cases hh)

/-- Strict list indexing: Go slice indexing panics when out of range. -/
def elemAt {α : Type u} (xs : List α) (i : Nat) : Res α :=
  match xs[i]? with
  | some a => .ok a
  | none => .error (.fatal "index out of range")

/-- `xs` with `a` inserted before position `i` (Go
`append(xs[:i], append([]T, a, xs[i:]...)...)`). -/
def insertAt {α : Type u} (xs : List α) (i : Nat) (a : α) : List α :=
  xs.take i ++ a :: xs.drop i

/-- Embedding of the Go `Node` struct (file `internal/tree`, unnamed part):
keys, parallel values, child pointers, leaf flag, parent back-pointer,
cached key count and occupancy bounds. -/
structure Node (V : Type) where
  keys : List Int
  values : List V
  children : List Nat
  isLeaf : Bool
  parent : Option Nat
  size : Nat
  maxKeys : Nat
  minKeys : Nat
  deriving DecidableEq, Repr

/-- The heap of allocated nodes; a Go pointer is an index into this list.
Allocation appends at the end. -/
abbrev Heap (V : Type) : Type := List (Node V)

/-- Dereference a node pointer (nil/corrupt pointers panic in Go). -/
def getN {V : Type} (h : Heap V) (i : Nat) : Res (Node V) :=
  match h[i]? with
  | some n => .ok n
  | none => .error (.fatal "invalid node reference")

/-- Write through a node pointer. -/
def setN {V : Type} (h : Heap V) (i : Nat) (n : Node V) : Heap V :=
  h.set i n

/-- Embedding of the Go `Tree` struct: root pointer, degree, total key
count, height and the key comparator.  The mutex and logger carry no
algorithmic state and are omitted. -/
structure Tree (V : Type) where
  root : Option Nat
  degree : Nat
  size : Int
  height : Int
  comparator : Int → Int → Int

/-- The default comparator installed by `NewTree`: `func(a, b int) int { return a - b }`. -/
def defaultCmp : Int → Int → Int := fun a b => a - b

/-- `NewTree`: panics (via `Logger.Panicf`) when `degree < 2`, otherwise
returns an empty tree with the default ascending comparator. -/
def NewTree (V : Type) (degree : Int) : Res (Tree V) :=
  if degree < 2 then .error (.fatal "degree must be at least 2")
  else .ok
    { root := none
      degree := degree.toNat
      size := 0
      height := 0
      comparator := defaultCmp }

/-- Structural worker for `scanFromLeft`: `r` counts the remaining
positions below `sz` (it is `sz - i`, so `r = 0` is exactly `i ≥ sz`). -/
def scanFromLeftGo (cmp : Int → Int → Int) (keys : List Int) (key : Int) :
    Nat → Nat → Res Nat
  | i, 0 => .ok i
  | i, r + 1 =>
    match keys[i]? with
    | none => .error (.fatal "index out of range")
    | some k =>
      if cmp k key < 0 then scanFromLeftGo cmp keys key (i + 1) r else .ok i

/-- The upward scan loop `i := 0; for i < sz && cmp(keys[i], key) < 0 { i++ }`
shared by `searchNode` and `deleteNode`; returns the final `i`. -/
def scanFromLeft (cmp : Int → Int → Int) (keys : List Int) (sz : Nat)
    (key : Int) (i : Nat) : Res Nat :=
  scanFromLeftGo cmp keys key i (sz - i)

/-- The downward scan loop of `insertNonFull`
(`i := size-1; for i >= 0 && cmp(keys[i], key) > 0 { i-- }`), started with
the key count and returning `i + 1`, the insertion (or descent) position. -/
def scanFromRight (cmp : Int → Int → Int) (keys : List Int) (key : Int) :
    Nat → Res Nat
  | 0 => .ok 0
  | n + 1 =>
    match keys[n]? with
    | none => .error (.fatal "index out of range")
    | some k =>
      if cmp k key > 0 then scanFromRight cmp keys key n else .ok (n + 1)

/-- `checkInvariants` (file `internal/tree/invariants.go`): recursively
panics when a non-leaf node does not have exactly one more child than keys.
A nil argument is accepted silently. -/
def checkInvariants {V : Type} (h : Heap V) : Option Nat → Nat → Res Unit
  | none, _ => .ok ()
  | some _, 0 => .error .fuelOut
  | some i, fuel + 1 => do
    let n ← getN h i
    if n.isLeaf then .ok ()
    else if n.children.length ≠ n.size + 1 then
      .error (.fatal "Invariant violation: children count differs from keys count plus one")
    else
      n.children.foldlM (fun _ c => checkInvariants h (some c) fuel) ()

/-- `normalizeChildren`: rebuilds a non-leaf node's children slice so that
its length is `size + 1`.  The Go code would pad a too-short slice with nil
pointers, which poisons every later dereference; that branch is embedded as
a fatal outcome. -/
def normalizeChildren {V : Type} (h : Heap V) (i : Nat) : Res (Heap V) := do
  let n ← getN h i
  if n.isLeaf then .ok h
  else if n.children.length = n.size + 1 then .ok h
  else if n.size + 1 ≤ n.children.length then
    .ok (setN h i { n with children := n.children.take (n.size + 1) })
  else .error (.fatal "normalizeChildren: fewer children than expected")

/-- The re-parenting loops (`for _, c := range ids { c.Parent = p }`). -/
def setParents {V : Type} (h : Heap V) (ids : List Nat) (p : Option Nat) :
    Res (Heap V) :=
  ids.foldlM (fun acc c => do
    let cd ← getN acc c
    .ok (setN acc c { cd with parent := p })) h

/-- `splitChild(parent, index)` (file `internal/tree/tree.go`): splits the
full child at `parent.children[index]`, promoting its median key/value into
the parent at `index`, allocating a sibling that takes the upper half, and
truncating the child to the lower half. -/
def splitChild {V : Type} (deg : Nat) (h : Heap V)
    (pId : Nat) (index : Nat) (fl : Nat) : Res (Heap V) := do
  let p ← getN h pId
  let cId ← elemAt p.children index
  let _ ← checkInvariants h (some cId) fl
  let h ← normalizeChildren h pId
  let cd ← getN h cId
  let medianKey ← elemAt cd.keys (deg - 1)
  let medianValue ← elemAt cd.values (deg - 1)
  let newId := h.length
  let newChildren := if cd.isLeaf then [] else cd.children.drop deg
  let newNode : Node V :=
    { keys := (cd.keys.drop deg).take (deg - 1)
      values := (cd.values.drop deg).take (deg - 1)
      children := newChildren
      isLeaf := cd.isLeaf
      parent := some pId
      size := deg - 1
      maxKeys := 2 * deg - 1
      minKeys := deg - 1 }
  let h := h ++ [newNode]
  let h ← if cd.isLeaf then pure h else setParents h newChildren (some newId)
  let cd ← getN h cId
  let h := setN h cId
    { cd with
      keys := cd.keys.take (deg - 1)
      values := cd.values.take (deg - 1)
      size := deg - 1
      children := if cd.isLeaf then cd.children else cd.children.take deg }
  let p ← getN h pId
  let pKeys := insertAt p.keys index medianKey
  let h := setN h pId
    { p with
      keys := pKeys
      values := insertAt p.values index medianValue
      children := insertAt p.children (index + 1) newId
      size := pKeys.length }
  let h ← normalizeChildren h pId
  let _ ← checkInvariants h (some cId) fl
  let _ ← checkInvariants h (some newId) fl
  let _ ← checkInvariants h (some pId) fl
  .ok h

/-- `insertNonFull(node, key, value)`: inserts into a leaf at the scan
position, or descends into the proper child, pre-splitting it if full. -/
def insertNonFull {V : Type} (cmp : Int → Int → Int) (deg : Nat)
    (h : Heap V) (i : Nat) (key : Int) (value : V) : Nat → Res (Heap V)
  | 0 => .error .fuelOut
  | fuel + 1 => do
    let n ← getN h i
    if n.isLeaf then do
      let pos ← scanFromRight cmp n.keys key n.size
      .ok (setN h i
        { n with
          keys := insertAt n.keys pos key
          values := insertAt n.values pos value
          size := n.size + 1 })
    else do
      let pos ← scanFromRight cmp n.keys key n.size
      let c ← elemAt n.children pos
      let cd ← getN h c
      if cd.size = cd.maxKeys then do
        let h' ← splitChild deg h i pos fuel
        let n' ← getN h' i
        let k ← elemAt n'.keys pos
        let pos' := if cmp k key < 0 then pos + 1 else pos
        let c' ← elemAt n'.children pos'
        insertNonFull cmp deg h' c' key value fuel
      else
        insertNonFull cmp deg h c key value fuel

/-- `Insert(key, value)`: creates a single-entry root for an empty tree;
otherwise pre-splits a full root (growing the height) and then inserts via
`insertNonFull`, incrementing the tree size. -/
def Insert {V : Type} (t : Tree V) (h : Heap V) (key : Int) (value : V)
    (fl : Nat) : Res (Tree V × Heap V) :=
  match t.root with
  | none =>
    let nd : Node V :=
      { keys := [key]
        values := [value]
        children := []
        isLeaf := true
        parent := none
        size := 1
        maxKeys := 2 * t.degree - 1
        minKeys := t.degree - 1 }
    .ok ({ t with root := some h.length, size := t.size + 1, height := 1 },
         h ++ [nd])
  | some r => do
    let _ ← checkInvariants h (some r) fl
    let rd ← getN h r
    if rd.size = rd.maxKeys then do
      let newRootId := h.length
      let newRoot : Node V :=
        { keys := []
          values := []
          children := [r]
          isLeaf := false
          parent := none
          size := 0
          maxKeys := 2 * t.degree - 1
          minKeys := t.degree - 1 }
      let h := h ++ [newRoot]
      let h := setN h r { rd with parent := some newRootId }
      let h ← splitChild t.degree h newRootId 0 fl
      let t : Tree V := { t with root := some newRootId, height := t.height + 1 }
      let h ← insertNonFull t.comparator t.degree h newRootId key value fl
      let t : Tree V := { t with size := t.size + 1 }
      let _ ← checkInvariants h (some newRootId) fl
      .ok (t, h)
    else do
      let h ← insertNonFull t.comparator t.degree h r key value fl
      let t : Tree V := { t with size := t.size + 1 }
      let _ ← checkInvariants h (some r) fl
      .ok (t, h)

/-- `searchNode(node, key)`: scans for the first key position not below the
target, returns its value on an exact match, reports not-found at a leaf,
and otherwise descends into the child at the scan position.  `none` embeds
Go's `(nil, false)` result. -/
def searchNode {V : Type} (cmp : Int → Int → Int) (h : Heap V) :
    Option Nat → Int → Nat → Res (Option V)
  | none, _, _ => .ok none
  | some _, _, 0 => .error .fuelOut
  | some i, key, fuel + 1 => do
    let n ← getN h i
    let idx ← scanFromLeft cmp n.keys n.size key 0
    let hit ←
      if idx < n.size then do
        let k ← elemAt n.keys idx
        pure (decide (cmp k key = 0))
      else pure false
    if hit then do
      let v ← elemAt n.values idx
      .ok (some v)
    else if n.isLeaf then .ok none
    else do
      let c ← elemAt n.children idx
      searchNode cmp h (some c) key fuel

/-- `Search(key)`: read-only descent from the root. -/
def Search {V : Type} (t : Tree V) (h : Heap V) (key : Int) (fl : Nat) :
    Res (Option V) :=
  searchNode t.comparator h t.root key fl

/-- `getPredecessor`: descends along last children to the rightmost leaf and
returns that leaf together with its last key/value. -/
def getPredecessor {V : Type} (h : Heap V) (i : Nat) :
    Nat → Res (Nat × Int × V)
  | 0 => .error .fuelOut
  | fuel + 1 => do
    let n ← getN h i
    if n.isLeaf then do
      if n.size = 0 then .error (.fatal "index out of range")
      else do
        let k ← elemAt n.keys (n.size - 1)
        let v ← elemAt n.values (n.size - 1)
        .ok (i, k, v)
    else do
      let c ← elemAt n.children n.size
      getPredecessor h c fuel

/-- `getSuccessor`: descends along first children to the leftmost leaf and
returns that leaf together with its first key/value. -/
def getSuccessor {V : Type} (h : Heap V) (i : Nat) :
    Nat → Res (Nat × Int × V)
  | 0 => .error .fuelOut
  | fuel + 1 => do
    let n ← getN h i
    if n.isLeaf then do
      let k ← elemAt n.keys 0
      let v ← elemAt n.values 0
      .ok (i, k, v)
    else do
      let c ← elemAt n.children 0
      getSuccessor h c fuel

/-- The pointer-equality search `for i, child := range parent.Children
{ if child == node { childIndex = i } }`. -/
def findChildIndex (children : List Nat) (node : Nat) : Option Nat :=
  children.findIdx? (fun c => c = node)

/-- `mergeChildren(node, index)` (file `internal/tree/tree.go`): folds the
separator key at `index` and the right child into the left child, removes
both from `node`, and, when `node` is an empty root, promotes the merged
child to be the new tree root (decrementing the height). -/
def mergeChildren {V : Type} (t : Tree V) (h : Heap V) (i : Nat)
    (index : Nat) (fl : Nat) : Res (Tree V × Heap V) := do
  let n ← getN h i
  if index + 1 ≥ n.children.length then
    .error (.fatal "mergeChildren: invalid index")
  else do
    let lId ← elemAt n.children index
    let rId ← elemAt n.children (index + 1)
    let sepK ← elemAt n.keys index
    let sepV ← elemAt n.values index
    let ld ← getN h lId
    let ld := { ld with keys := ld.keys ++ [sepK], values := ld.values ++ [sepV] }
    let ld := { ld with size := ld.keys.length }
    let h := setN h lId ld
    let rd ← getN h rId
    let ld ← getN h lId
    let ld := { ld with keys := ld.keys ++ rd.keys, values := ld.values ++ rd.values }
    let ld := { ld with size := ld.keys.length }
    let h := setN h lId ld
    let h ←
      if !ld.isLeaf then do
        let ld ← getN h lId
        let h := setN h lId { ld with children := ld.children ++ rd.children }
        setParents h rd.children (some lId)
      else pure h
    let n ← getN h i
    let n := { n with
      keys := n.keys.eraseIdx index
      values := n.values.eraseIdx index
      children := n.children.take (index + 1) ++ n.children.drop (index + 2) }
    let n := { n with size := n.keys.length }
    let h := setN h i n
    if n.children.length ≠ n.size + 1 then
      .error (.fatal "mergeChildren: invariant violation")
    else do
      let _ ← checkInvariants h (some i) fl
      if n.size = 0 ∧ n.parent = none then do
        let ld ← getN h lId
        let h := setN h lId { ld with parent := none }
        .ok ({ t with root := some lId, height := t.height - 1 }, h)
      else .ok (t, h)

/-- `borrowFromLeftSibling(parent, index)` (file `internal/tree/balance.go`):
moves the parent separator down to the front of the node and the left
sibling's last key up into the parent.  For internal nodes the Go code reads
`leftSibling.Children[leftSibling.Size]` only after `Size` has already been
decremented, so the child that moves across is the sibling's second-to-last
child (which also stays in the sibling), while the true last child is
dropped; the embedding reproduces this faithfully. -/
def borrowFromLeftSibling {V : Type} (h : Heap V) (pId : Nat) (index : Nat)
    (fl : Nat) : Res (Heap V) := do
  let p ← getN h pId
  if index = 0 ∨ index ≥ p.children.length then
    .error (.fatal "borrowFromLeftSibling: invalid parameters")
  else do
    let nId ← elemAt p.children index
    let lId ← elemAt p.children (index - 1)
    let nd ← getN h nId
    let sepK ← elemAt p.keys (index - 1)
    let sepV ← elemAt p.values (index - 1)
    let h := setN h nId
      { nd with keys := sepK :: nd.keys, values := sepV :: nd.values, size := nd.size + 1 }
    let ld ← getN h lId
    if ld.size = 0 then .error (.fatal "index out of range")
    else do
      let lastK ← elemAt ld.keys (ld.size - 1)
      let lastV ← elemAt ld.values (ld.size - 1)
      let p ← getN h pId
      let h := setN h pId
        { p with keys := p.keys.set (index - 1) lastK, values := p.values.set (index - 1) lastV }
      let ld ← getN h lId
      let ld := { ld with
        keys := ld.keys.take (ld.size - 1)
        values := ld.values.take (ld.size - 1)
        size := ld.size - 1 }
      let h := setN h lId ld
      let nd ← getN h nId
      let h ←
        if !nd.isLeaf then do
          let ld ← getN h lId
          let borrowed ← elemAt ld.children ld.size
          let h := setN h nId { nd with children := borrowed :: nd.children }
          let bd ← getN h borrowed
          let h := setN h borrowed { bd with parent := some nId }
          let ld ← getN h lId
          .ok (setN h lId { ld with children := ld.children.take (ld.size + 1) })
        else pure h
      let _ ← checkInvariants h (some pId) fl
      .ok h

/-- `borrowFromRightSibling(parent, index)`: moves the parent separator down
to the end of the node and the right sibling's first key up into the parent;
for internal nodes the sibling's first child moves across. -/
def borrowFromRightSibling {V : Type} (h : Heap V) (pId : Nat)
    (index : Nat) : Res (Heap V) := do
  let p ← getN h pId
  let nId ← elemAt p.children index
  let rId ← elemAt p.children (index + 1)
  let nd ← getN h nId
  let sepK ← elemAt p.keys index
  let sepV ← elemAt p.values index
  let h := setN h nId
    { nd with keys := nd.keys ++ [sepK], values := nd.values ++ [sepV], size := nd.size + 1 }
  let rd ← getN h rId
  let firstK ← elemAt rd.keys 0
  let firstV ← elemAt rd.values 0
  let p ← getN h pId
  let h := setN h pId
    { p with keys := p.keys.set index firstK, values := p.values.set index firstV }
  let rd ← getN h rId
  let h := setN h rId
    { rd with keys := rd.keys.drop 1, values := rd.values.drop 1, size := rd.size - 1 }
  let nd ← getN h nId
  if !nd.isLeaf then do
    let rd ← getN h rId
    let borrowed ← elemAt rd.children 0
    let h := setN h nId { nd with children := nd.children ++ [borrowed] }
    let bd ← getN h borrowed
    let h := setN h borrowed { bd with parent := some nId }
    let rd ← getN h rId
    .ok (setN h rId { rd with children := rd.children.drop 1 })
  else .ok h

/-- `mergeWithLeftSibling(parent, leftIndex)` (file
`internal/tree/balance.go`): folds the separator and the node at
`leftIndex + 1` into the left sibling, removes them from the parent, and
promotes the sibling to tree root when the parent was an emptied root. -/
def mergeWithLeftSibling {V : Type} (t : Tree V) (h : Heap V) (pId : Nat)
    (leftIndex : Nat) (fl : Nat) : Res (Tree V × Heap V) := do
  let p ← getN h pId
  if leftIndex ≥ p.keys.length then
    .error (.fatal "mergeWithLeftSibling: invalid merge index")
  else if leftIndex + 1 ≥ p.children.length then
    .error (.fatal "mergeWithLeftSibling: not enough children")
  else do
    let lId ← elemAt p.children leftIndex
    let nId ← elemAt p.children (leftIndex + 1)
    let sepK ← elemAt p.keys leftIndex
    let sepV ← elemAt p.values leftIndex
    let ld ← getN h lId
    let ld := { ld with keys := ld.keys ++ [sepK], values := ld.values ++ [sepV] }
    let ld := { ld with size := ld.keys.length }
    let h := setN h lId ld
    let nd ← getN h nId
    let ld ← getN h lId
    let ld := { ld with keys := ld.keys ++ nd.keys, values := ld.values ++ nd.values }
    let ld := { ld with size := ld.keys.length }
    let h := setN h lId ld
    let h ←
      if !nd.isLeaf then do
        let ld ← getN h lId
        let h := setN h lId { ld with children := ld.children ++ nd.children }
        setParents h nd.children (some lId)
      else pure h
    let p ← getN h pId
    let newChildren := p.children.take (leftIndex + 1) ++ p.children.drop (leftIndex + 2)
    let p := { p with
      keys := p.keys.eraseIdx leftIndex
      values := p.values.eraseIdx leftIndex
      children := newChildren.set leftIndex lId }
    let p := { p with size := p.keys.length }
    let h := setN h pId p
    if p.children.length ≠ p.size + 1 then
      .error (.fatal "mergeWithLeftSibling: invariant violation")
    else do
      let _ ← checkInvariants h (some pId) fl
      if p.parent = none ∧ p.size = 0 then do
        let ld ← getN h lId
        let h := setN h lId { ld with parent := none }
        .ok ({ t with root := some lId, height := t.height - 1 }, h)
      else .ok (t, h)

/-- `mergeWithRightSibling(parent, index)`: folds the separator and the
right sibling into the node at `index` and removes them from the parent. -/
def mergeWithRightSibling {V : Type} (h : Heap V) (pId : Nat) (index : Nat)
    (fl : Nat) : Res (Heap V) := do
  let p ← getN h pId
  let p := { p with size := p.keys.length }
  let h := setN h pId p
  if p.size = 0 then .error (.fatal "mergeWithRightSibling: parent has 0 keys")
  else if index ≥ p.size then
    .error (.fatal "mergeWithRightSibling: invalid index")
  else if index + 1 ≥ p.children.length then
    .error (.fatal "mergeWithRightSibling: not enough children")
  else do
    let nId ← elemAt p.children index
    let rId ← elemAt p.children (index + 1)
    let sepK ← elemAt p.keys index
    let sepV ← elemAt p.values index
    let nd ← getN h nId
    let nd := { nd with keys := nd.keys ++ [sepK], values := nd.values ++ [sepV] }
    let nd := { nd with size := nd.keys.length }
    let h := setN h nId nd
    let rd ← getN h rId
    let nd ← getN h nId
    let nd := { nd with keys := nd.keys ++ rd.keys, values := nd.values ++ rd.values }
    let nd := { nd with size := nd.keys.length }
    let h := setN h nId nd
    let h ←
      if !nd.isLeaf then do
        let nd ← getN h nId
        let h := setN h nId { nd with children := nd.children ++ rd.children }
        setParents h rd.children (some nId)
      else pure h
    let p ← getN h pId
    let p := { p with
      keys := p.keys.eraseIdx index
      values := p.values.eraseIdx index
      children := p.children.take (index + 1) ++ p.children.drop (index + 2) }
    let p := { p with size := p.keys.length }
    let h := setN h pId p
    if p.children.length ≠ p.size + 1 then
      .error (.fatal "mergeWithRightSibling: invariant violation")
    else do
      let _ ← checkInvariants h (some pId) fl
      .ok h

/-- `balanceAfterDeletion(node)` (file `internal/tree/balance.go`): on an
underfull non-root node, borrow from the left sibling, else from the right
sibling, else merge with a sibling (left preferred) and recursively balance
the parent if it underflowed.  A root is exempt, except that an empty root
with children is collapsed into its first child. -/
def balanceAfterDeletion {V : Type} (t : Tree V) (h : Heap V) (i : Nat) :
    Nat → Res (Tree V × Heap V)
  | 0 => .error .fuelOut
  | fuel + 1 => do
    let n ← getN h i
    if n.size ≥ n.minKeys ∨ n.parent = none then
      if n.parent = none ∧ n.size = 0 ∧ n.children.length > 0 then do
        let c ← elemAt n.children 0
        let cd ← getN h c
        let h := setN h c { cd with parent := none }
        .ok ({ t with root := some c, height := t.height - 1 }, h)
      else .ok (t, h)
    else do
      let pId ← match n.parent with
        | some p => pure p
        | none => .error (.fatal "unreachable")
      let p ← getN h pId
      match findChildIndex p.children i with
      | none => .error (.fatal "invalid child index")
      | some childIndex => do
        let borrowedLeft ←
          if childIndex > 0 then do
            let lId ← elemAt p.children (childIndex - 1)
            let ld ← getN h lId
            pure (decide (ld.size > ld.minKeys))
          else pure false
        if borrowedLeft then do
          let h ← borrowFromLeftSibling h pId childIndex fuel
          .ok (t, h)
        else do
          let borrowedRight ←
            if childIndex < p.children.length - 1 then do
              let rId ← elemAt p.children (childIndex + 1)
              let rd ← getN h rId
              pure (decide (rd.size > rd.minKeys))
            else pure false
          if borrowedRight then do
            let h ← borrowFromRightSibling h pId childIndex
            .ok (t, h)
          else do
            let (t, h) ←
              if childIndex > 0 then
                mergeWithLeftSibling t h pId (childIndex - 1) fuel
              else do
                let h ← mergeWithRightSibling h pId childIndex fuel
                pure (t, h)
            let pd ← getN h pId
            if pd.size < pd.minKeys then balanceAfterDeletion t h pId fuel
            else .ok (t, h)

/-- The body of `deleteInternal(node, index)`: replaces the key with its
predecessor or successor when a child has spare capacity (recursively
deleting the borrowed key), otherwise merges: directly via `mergeChildren`
when the node has no usable parent context, else with a sibling under the
parent, re-deleting the key from the merged child.  The mutual recursion
back into `deleteNode` is passed as the callback `dn` (already applied to
the remaining fuel), so that the recursion is structural on fuel. -/
def deleteInternalCore {V : Type}
    (dn : Tree V → Heap V → Nat → Int → Res (Tree V × Heap V))
    (t : Tree V) (h : Heap V) (i : Nat) (index : Nat) (fuel : Nat) :
    Res (Tree V × Heap V) := do
  let n ← getN h i
  let key ← elemAt n.keys index
  let lId ← elemAt n.children index
  let rId ← elemAt n.children (index + 1)
  let ld ← getN h lId
  if ld.size > ld.minKeys then do
    let (predNode, predKey, predValue) ← getPredecessor h lId fuel
    let n ← getN h i
    let h := setN h i
      { n with keys := n.keys.set index predKey, values := n.values.set index predValue }
    let (t, h) ← dn t h predNode predKey
    let _ ← checkInvariants h (some i) fuel
    .ok (t, h)
  else do
    let rd ← getN h rId
    if rd.size > rd.minKeys then do
      let (succNode, succKey, succValue) ← getSuccessor h rId fuel
      let n ← getN h i
      let h := setN h i
        { n with keys := n.keys.set index succKey, values := n.values.set index succValue }
      let (t, h) ← dn t h succNode succKey
      let _ ← checkInvariants h (some i) fuel
      .ok (t, h)
    else do
      let parentEmpty ←
        match n.parent with
        | none => pure true
        | some pId => do
          let p ← getN h pId
          pure (decide (p.size = 0))
      if parentEmpty then do
        let (t, h) ← mergeChildren t h i index fuel
        let _ ← checkInvariants h (some i) fuel
        .ok (t, h)
      else do
        let pId ← match n.parent with
          | some p => pure p
          | none => .error (.fatal "unreachable")
        let p ← getN h pId
        match findChildIndex p.children i with
        | none => .error (.fatal "deleteInternal: node not found in parent")
        | some childIndex => do
          let (t, h) ←
            if childIndex > 0 then do
              let (t, h) ← mergeWithLeftSibling t h pId (childIndex - 1) fuel
              let p ← getN h pId
              let c ← elemAt p.children (childIndex - 1)
              dn t h c key
            else do
              let h ← mergeWithRightSibling h pId childIndex fuel
              let p ← getN h pId
              let c ← elemAt p.children childIndex
              dn t h c key
          let _ ← checkInvariants h (some i) fuel
          .ok (t, h)

/-- `deleteNode(node, key)` (file `internal/tree/tree.go`): removes the key
from a leaf directly (rebalancing on underflow), delegates to
`deleteInternalCore` when the key sits in an internal node, and otherwise
recurses into the child at the scan position. -/
def deleteNode {V : Type} (t : Tree V) (h : Heap V) (i : Nat) (key : Int) :
    Nat → Res (Tree V × Heap V)
  | 0 => .error .fuelOut
  | fuel + 1 => do
    let n ← getN h i
    let idx ← scanFromLeft t.comparator n.keys n.size key 0
    let found ←
      if idx < n.size then do
        let k ← elemAt n.keys idx
        pure (decide (t.comparator k key = 0))
      else pure false
    let (t, h) ←
      if found then
        if n.isLeaf then do
          let n := { n with
            keys := n.keys.eraseIdx idx
            values := n.values.eraseIdx idx
            size := n.size - 1 }
          let h := setN h i n
          let _ ← checkInvariants h (some i) fuel
          if n.size < n.minKeys then balanceAfterDeletion t h i fuel
          else .ok (t, h)
        else
          match fuel with
          | 0 => .error .fuelOut
          | g + 1 =>
            deleteInternalCore (fun t h c k => deleteNode t h c k g)
              t h i idx g
      else
        if !n.isLeaf then do
          let c ← elemAt n.children idx
          deleteNode t h c key fuel
        else .ok (t, h)
    let _ ← checkInvariants h (some i) fuel
    .ok (t, h)

/-- `deleteInternal(node, index)` as a standalone entry point (the form
`deleteNode` invokes inline). -/
def deleteInternal {V : Type} (t : Tree V) (h : Heap V) (i : Nat)
    (index : Nat) : Nat → Res (Tree V × Heap V)
  | 0 => .error .fuelOut
  | g + 1 =>
    deleteInternalCore (fun t h c k => deleteNode t h c k g) t h i index g


/-- `Delete(key)` (file `internal/tree/tree.go`): a nil root returns
immediately; otherwise the key is deleted from the root's subtree, an
emptied non-leaf root is collapsed into its first child (decrementing the
height), and the tree size is decremented unconditionally. -/
def Delete {V : Type} (t : Tree V) (h : Heap V) (key : Int) (fl : Nat) :
    Res (Tree V × Heap V) :=
  match t.root with
  | none => .ok (t, h)
  | some r => do
    let (t, h) ← deleteNode t h r key fl
    let (t, h) ← do
      match t.root with
      | none => .error (.fatal "nil root")
      | some r2 => do
        let rd ← getN h r2
        if rd.size = 0 ∧ rd.isLeaf = false then do
          let c ← elemAt rd.children 0
          pure ({ t with root := some c, height := t.height - 1 }, h)
        else pure (t, h)
    let t : Tree V := { t with size := t.size - 1 }
    let _ ← checkInvariants h t.root fl
    .ok (t, h)

/-- Structural worker for `sortedScan` (`r` is `sz - i`). -/
def sortedScanGo (cmp : Int → Int → Int) (keys : List Int) :
    Nat → Nat → Res Bool
  | _, 0 => .ok true
  | i, r + 1 => do
    let a ← elemAt keys (i - 1)
    let b ← elemAt keys i
    if cmp a b ≥ 0 then .ok false else sortedScanGo cmp keys (i + 1) r

/-- The sortedness loop of `validateNode`
(`for i := 1; i < node.Size; i++ { if cmp(keys[i-1], keys[i]) >= 0 { return false } }`). -/
def sortedScan (cmp : Int → Int → Int) (keys : List Int) (sz : Nat)
    (i : Nat) : Res Bool :=
  sortedScanGo cmp keys i (sz - i)

/-- `validateNode(node, isRoot)` (file `internal/tree/tree.go`, second
part): rejects a non-root node with a key count outside
`[minKeys, maxKeys]`, unsorted keys, or (for non-leaf nodes) a child whose
parent pointer does not point back; otherwise recursively validates the
children. -/
def validateNode {V : Type} (cmp : Int → Int → Int) (h : Heap V) (i : Nat)
    (isRoot : Bool) : Nat → Res Bool
  | 0 => .error .fuelOut
  | fuel + 1 => do
    let n ← getN h i
    if isRoot = false ∧ (n.size < n.minKeys ∨ n.size > n.maxKeys) then
      .ok false
    else do
      let sorted ← sortedScan cmp n.keys n.size 1
      if sorted = false then .ok false
      else if n.isLeaf then .ok true
      else
        n.children.foldlM
          (fun acc c =>
            if acc = false then pure false
            else do
              let cd ← getN h c
              if cd.parent ≠ some i then pure false
              else validateNode cmp h c false fuel)
          true

/-- `ValidateTree()`: an empty tree is valid; otherwise the root subtree is
validated with the root exempt from the occupancy bound. -/
def ValidateTree {V : Type} (t : Tree V) (h : Heap V) (fl : Nat) : Res Bool :=
  match t.root with
  | none => .ok true
  | some r => validateNode t.comparator h r true fl

/-- Log levels of `pkg/logger`. -/
inductive Level where
  | debug
  | info
  | warn
  | error
  deriving DecidableEq, Repr

/-- `logger.ParseLevel`: case-sensitive parse of a level name; an
unrecognized name is a recoverable error. -/
def ParseLevel (s : String) : Res Level :=
  if s = "debug" then .ok .debug
  else if s = "info" then .ok .info
  else if s = "warn" then .ok .warn
  else if s = "error" then .ok .error
  else .error (.err "invalid log level")

/-- Digit-run accumulator for `atoi`. -/
def atoiNatGo : List Char → Nat → Option Nat
  | [], acc => some acc
  | c :: cs, acc =>
    if '0' ≤ c ∧ c ≤ '9' then atoiNatGo cs (acc * 10 + (c.toNat - '0'.toNat))
    else none

/-- Model of Go `strconv.Atoi`: an optional sign followed by at least one
decimal digit; anything else is a parse failure. -/
def atoi (s : String) : Option Int :=
  match s.data with
  | [] => none
  | '-' :: cs => if cs = [] then none else (atoiNatGo cs 0).map (fun n => -(n : Int))
  | '+' :: cs => if cs = [] then none else (atoiNatGo cs 0).map (fun n => (n : Int))
  | cs => (atoiNatGo cs 0).map (fun n => (n : Int))

/-- The `Config` struct of `pkg/config`. -/
structure Config where
  treeDegree : Int
  logLevel : Level
  storagePath : String
  deriving DecidableEq, Repr

/-- `config.Load` (file `pkg/config/config.go`): reads the three
environment variables (an empty string means unset, as with `os.Getenv`),
applying defaults `3` / `info` / `"data/tree.json"`.  A `TREE_DEGREE` that
does not parse as an integer at least `2` or an unrecognized `LOG_LEVEL`
yields a recoverable error result. -/
def LoadConfig (degreeStr logLevelStr storagePath : String) : Res Config := do
  let deg ←
    if degreeStr = "" then pure (3 : Int)
    else
      match atoi degreeStr with
      | none => .error (.err "invalid TREE_DEGREE (must be at least 2)")
      | some d =>
        if d < 2 then .error (.err "invalid TREE_DEGREE (must be at least 2)")
        else pure d
  let lvl ←
    if logLevelStr = "" then pure Level.info
    else
      match ParseLevel logLevelStr with
      | .ok l => pure l
      | .error _ => .error (.err "invalid LOG_LEVEL")
  let path := if storagePath = "" then "data/tree.json" else storagePath
  .ok { treeDegree := deg, logLevel := lvl, storagePath := path }

/-- Fuel used by the public entry points: strictly more than twice the node
count, which dominates every recursion depth the operations can reach on a
well-formed heap. -/
def opFuel {V : Type} (h : Heap V) : Nat := 2 * h.length + 8

/-- Public `Insert` with the standard fuel. -/
def InsertOp {V : Type} (t : Tree V) (h : Heap V) (key : Int) (value : V) :
    Res (Tree V × Heap V) :=
  Insert t h key value (opFuel h)

/-- Public `Delete` with the standard fuel. -/
def DeleteOp {V : Type} (t : Tree V) (h : Heap V) (key : Int) :
    Res (Tree V × Heap V) :=
  Delete t h key (opFuel h)

/-- Public `Search` with the standard fuel. -/
def SearchOp {V : Type} (t : Tree V) (h : Heap V) (key : Int) :
    Res (Option V) :=
  Search t h key (opFuel h)

/-- Public `ValidateTree` with the standard fuel. -/
def ValidateTreeOp {V : Type} (t : Tree V) (h : Heap V) : Res Bool :=
  ValidateTree t h (opFuel h)

/-- Folds `Insert` over a list of key/value pairs. -/
def insertList {V : Type} (t : Tree V) (h : Heap V)
    (ps : List (Int × V)) : Res (Tree V × Heap V) :=
  ps.foldlM (fun s p => InsertOp s.1 s.2 p.1 p.2) (t, h)

/-- Sum of the node-local `Size` fields over every node reachable from the
given pointer. -/
def sumSizes {V : Type} (h : Heap V) : Option Nat → Nat → Res Nat
  | none, _ => .ok 0
  | some _, 0 => .error .fuelOut
  | some i, fuel + 1 => do
    let n ← getN h i
    n.children.foldlM
      (fun acc c => do
        let s ← sumSizes h (some c) fuel
        pure (acc + s))
      n.size

/-! ### Concrete states used to exercise the public operations -/

/-- The tree produced by `NewTree(2, logger)`: empty, degree 2. -/
def fresh2 : Tree Int :=
  { root := none, degree := 2, size := 0, height := 0, comparator := defaultCmp }

/-- State after `Insert(5, 50)` into a fresh degree-2 tree. -/
def oneT : Tree Int :=
  { root := some 0, degree := 2, size := 1, height := 1,
    comparator := defaultCmp }

/-- Heap of `oneT`: the single leaf holding the entry `(5, 50)`. -/
def oneH : Heap Int :=
  [ { keys := [5], values := [50], children := [], isLeaf := true, parent := none, size := 1, maxKeys := 3, minKeys := 1 } ]

/-- `oneT` after the absent-key `Delete(7)`: only the size changed. -/
def oneT0 : Tree Int :=
  { root := some 0, degree := 2, size := 0, height := 1,
    comparator := defaultCmp }

/-- Merge-scenario state after insert step 1 (keys 10,20,30,40 in order, values tenfold) -/
def mg1T : Tree Int :=
  { root := some 0, degree := 2, size := 1, height := 1,
    comparator := defaultCmp }

/-- Heap of `mg1T`. -/
def mg1H : Heap Int :=
  [ { keys := [10], values := [100], children := [], isLeaf := true, parent := none, size := 1, maxKeys := 3, minKeys := 1 } ]

/-- Merge-scenario state after insert step 2 (keys 10,20,30,40 in order, values tenfold) -/
def mg2T : Tree Int :=
  { root := some 0, degree := 2, size := 2, height := 1,
    comparator := defaultCmp }

/-- Heap of `mg2T`. -/
def mg2H : Heap Int :=
  [ { keys := [10, 20], values := [100, 200], children := [], isLeaf := true, parent := none, size := 2, maxKeys := 3, minKeys := 1 } ]

/-- Merge-scenario state after insert step 3 (keys 10,20,30,40 in order, values tenfold) -/
def mg3T : Tree Int :=
  { root := some 0, degree := 2, size := 3, height := 1,
    comparator := defaultCmp }

/-- Heap of `mg3T`. -/
def mg3H : Heap Int :=
  [ { keys := [10, 20, 30], values := [100, 200, 300], children := [], isLeaf := true, parent := none, size := 3, maxKeys := 3, minKeys := 1 } ]

/-- Merge-scenario state after insert step 4 (keys 10,20,30,40 in order, values tenfold) -/
def mg4T : Tree Int :=
  { root := some 1, degree := 2, size := 4, height := 2,
    comparator := defaultCmp }

/-- Heap of `mg4T`. -/
def mg4H : Heap Int :=
  [ { keys := [10], values := [100], children := [], isLeaf := true, parent := some 1, size := 1, maxKeys := 3, minKeys := 1 },
    { keys := [20], values := [200], children := [0, 2], isLeaf := false, parent := none, size := 1, maxKeys := 3, minKeys := 1 },
    { keys := [30, 40], values := [300, 400], children := [], isLeaf := true, parent := some 1, size := 2, maxKeys := 3, minKeys := 1 } ]

/-- Merge-scenario state after `Delete(40)`: root `[20]` over leaves `[10]` and `[30]` -/
def mg5T : Tree Int :=
  { root := some 1, degree := 2, size := 3, height := 2,
    comparator := defaultCmp }

/-- Heap of `mg5T`. -/
def mg5H : Heap Int :=
  [ { keys := [10], values := [100], children := [], isLeaf := true, parent := some 1, size := 1, maxKeys := 3, minKeys := 1 },
    { keys := [20], values := [200], children := [0, 2], isLeaf := false, parent := none, size := 1, maxKeys := 3, minKeys := 1 },
    { keys := [30], values := [300], children := [], isLeaf := true, parent := some 1, size := 1, maxKeys := 3, minKeys := 1 } ]

/-- Merge-scenario state after `Delete(20)`: the separator 20 was merged down into the (new root) leaf `[10, 20, 30]` and never deleted; the tree size dropped to 2 -/
def mg6T : Tree Int :=
  { root := some 0, degree := 2, size := 2, height := 1,
    comparator := defaultCmp }

/-- Heap of `mg6T`. -/
def mg6H : Heap Int :=
  [ { keys := [10, 20, 30], values := [100, 200, 300], children := [], isLeaf := true, parent := none, size := 3, maxKeys := 3, minKeys := 1 },
    { keys := [], values := [], children := [0], isLeaf := false, parent := none, size := 0, maxKeys := 3, minKeys := 1 },
    { keys := [30], values := [300], children := [], isLeaf := true, parent := some 1, size := 1, maxKeys := 3, minKeys := 1 } ]

/-- Borrow-scenario state after insert step 1 (keys 100,90,...,10 descending, values tenfold) -/
def bw1T : Tree Int :=
  { root := some 0, degree := 2, size := 1, height := 1,
    comparator := defaultCmp }

/-- Heap of `bw1T`. -/
def bw1H : Heap Int :=
  [ { keys := [100], values := [1000], children := [], isLeaf := true, parent := none, size := 1, maxKeys := 3, minKeys := 1 } ]

/-- Borrow-scenario state after insert step 2 (keys 100,90,...,10 descending, values tenfold) -/
def bw2T : Tree Int :=
  { root := some 0, degree := 2, size := 2, height := 1,
    comparator := defaultCmp }

/-- Heap of `bw2T`. -/
def bw2H : Heap Int :=
  [ { keys := [90, 100], values := [900, 1000], children := [], isLeaf := true, parent := none, size := 2, maxKeys := 3, minKeys := 1 } ]

/-- Borrow-scenario state after insert step 3 (keys 100,90,...,10 descending, values tenfold) -/
def bw3T : Tree Int :=
  { root := some 0, degree := 2, size := 3, height := 1,
    comparator := defaultCmp }

/-- Heap of `bw3T`. -/
def bw3H : Heap Int :=
  [ { keys := [80, 90, 100], values := [800, 900, 1000], children := [], isLeaf := true, parent := none, size := 3, maxKeys := 3, minKeys := 1 } ]

/-- Borrow-scenario state after insert step 4 (keys 100,90,...,10 descending, values tenfold) -/
def bw4T : Tree Int :=
  { root := some 1, degree := 2, size := 4, height := 2,
    comparator := defaultCmp }

/-- Heap of `bw4T`. -/
def bw4H : Heap Int :=
  [ { keys := [70, 80], values := [700, 800], children := [], isLeaf := true, parent := some 1, size := 2, maxKeys := 3, minKeys := 1 },
    { keys := [90], values := [900], children := [0, 2], isLeaf := false, parent := none, size := 1, maxKeys := 3, minKeys := 1 },
    { keys := [100], values := [1000], children := [], isLeaf := true, parent := some 1, size := 1, maxKeys := 3, minKeys := 1 } ]

/-- Borrow-scenario state after insert step 5 (keys 100,90,...,10 descending, values tenfold) -/
def bw5T : Tree Int :=
  { root := some 1, degree := 2, size := 5, height := 2,
    comparator := defaultCmp }

/-- Heap of `bw5T`. -/
def bw5H : Heap Int :=
  [ { keys := [60, 70, 80], values := [600, 700, 800], children := [], isLeaf := true, parent := some 1, size := 3, maxKeys := 3, minKeys := 1 },
    { keys := [90], values := [900], children := [0, 2], isLeaf := false, parent := none, size := 1, maxKeys := 3, minKeys := 1 },
    { keys := [100], values := [1000], children := [], isLeaf := true, parent := some 1, size := 1, maxKeys := 3, minKeys := 1 } ]

/-- Borrow-scenario state after insert step 6 (keys 100,90,...,10 descending, values tenfold) -/
def bw6T : Tree Int :=
  { root := some 1, degree := 2, size := 6, height := 2,
    comparator := defaultCmp }

/-- Heap of `bw6T`. -/
def bw6H : Heap Int :=
  [ { keys := [50, 60], values := [500, 600], children := [], isLeaf := true, parent := some 1, size := 2, maxKeys := 3, minKeys := 1 },
    { keys := [70, 90], values := [700, 900], children := [0, 3, 2], isLeaf := false, parent := none, size := 2, maxKeys := 3, minKeys := 1 },
    { keys := [100], values := [1000], children := [], isLeaf := true, parent := some 1, size := 1, maxKeys := 3, minKeys := 1 },
    { keys := [80], values := [800], children := [], isLeaf := true, parent := some 1, size := 1, maxKeys := 3, minKeys := 1 } ]

/-- Borrow-scenario state after insert step 7 (keys 100,90,...,10 descending, values tenfold) -/
def bw7T : Tree Int :=
  { root := some 1, degree := 2, size := 7, height := 2,
    comparator := defaultCmp }

/-- Heap of `bw7T`. -/
def bw7H : Heap Int :=
  [ { keys := [40, 50, 60], values := [400, 500, 600], children := [], isLeaf := true, parent := some 1, size := 3, maxKeys := 3, minKeys := 1 },
    { keys := [70, 90], values := [700, 900], children := [0, 3, 2], isLeaf := false, parent := none, size := 2, maxKeys := 3, minKeys := 1 },
    { keys := [100], values := [1000], children := [], isLeaf := true, parent := some 1, size := 1, maxKeys := 3, minKeys := 1 },
    { keys := [80], values := [800], children := [], isLeaf := true, parent := some 1, size := 1, maxKeys := 3, minKeys := 1 } ]

/-- Borrow-scenario state after insert step 8 (keys 100,90,...,10 descending, values tenfold) -/
def bw8T : Tree Int :=
  { root := some 1, degree := 2, size := 8, height := 2,
    comparator := defaultCmp }

/-- Heap of `bw8T`. -/
def bw8H : Heap Int :=
  [ { keys := [30, 40], values := [300, 400], children := [], isLeaf := true, parent := some 1, size := 2, maxKeys := 3, minKeys := 1 },
    { keys := [50, 70, 90], values := [500, 700, 900], children := [0, 4, 3, 2], isLeaf := false, parent := none, size := 3, maxKeys := 3, minKeys := 1 },
    { keys := [100], values := [1000], children := [], isLeaf := true, parent := some 1, size := 1, maxKeys := 3, minKeys := 1 },
    { keys := [80], values := [800], children := [], isLeaf := true, parent := some 1, size := 1, maxKeys := 3, minKeys := 1 },
    { keys := [60], values := [600], children := [], isLeaf := true, parent := some 1, size := 1, maxKeys := 3, minKeys := 1 } ]

/-- Borrow-scenario state after insert step 9 (keys 100,90,...,10 descending, values tenfold) -/
def bw9T : Tree Int :=
  { root := some 5, degree := 2, size := 9, height := 3,
    comparator := defaultCmp }

/-- Heap of `bw9T`. -/
def bw9H : Heap Int :=
  [ { keys := [20, 30, 40], values := [200, 300, 400], children := [], isLeaf := true, parent := some 1, size := 3, maxKeys := 3, minKeys := 1 },
    { keys := [50], values := [500], children := [0, 4], isLeaf := false, parent := some 5, size := 1, maxKeys := 3, minKeys := 1 },
    { keys := [100], values := [1000], children := [], isLeaf := true, parent := some 6, size := 1, maxKeys := 3, minKeys := 1 },
    { keys := [80], values := [800], children := [], isLeaf := true, parent := some 6, size := 1, maxKeys := 3, minKeys := 1 },
    { keys := [60], values := [600], children := [], isLeaf := true, parent := some 1, size := 1, maxKeys := 3, minKeys := 1 },
    { keys := [70], values := [700], children := [1, 6], isLeaf := false, parent := none, size := 1, maxKeys := 3, minKeys := 1 },
    { keys := [90], values := [900], children := [3, 2], isLeaf := false, parent := some 5, size := 1, maxKeys := 3, minKeys := 1 } ]

/-- Borrow-scenario state after insert step 10 (keys 100,90,...,10 descending, values tenfold) -/
def bw10T : Tree Int :=
  { root := some 5, degree := 2, size := 10, height := 3,
    comparator := defaultCmp }

/-- Heap of `bw10T`. -/
def bw10H : Heap Int :=
  [ { keys := [10, 20], values := [100, 200], children := [], isLeaf := true, parent := some 1, size := 2, maxKeys := 3, minKeys := 1 },
    { keys := [30, 50], values := [300, 500], children := [0, 7, 4], isLeaf := false, parent := some 5, size := 2, maxKeys := 3, minKeys := 1 },
    { keys := [100], values := [1000], children := [], isLeaf := true, parent := some 6, size := 1, maxKeys := 3, minKeys := 1 },
    { keys := [80], values := [800], children := [], isLeaf := true, parent := some 6, size := 1, maxKeys := 3, minKeys := 1 },
    { keys := [60], values := [600], children := [], isLeaf := true, parent := some 1, size := 1, maxKeys := 3, minKeys := 1 },
    { keys := [70], values := [700], children := [1, 6], isLeaf := false, parent := none, size := 1, maxKeys := 3, minKeys := 1 },
    { keys := [90], values := [900], children := [3, 2], isLeaf := false, parent := some 5, size := 1, maxKeys := 3, minKeys := 1 },
    { keys := [40], values := [400], children := [], isLeaf := true, parent := some 1, size := 1, maxKeys := 3, minKeys := 1 } ]

/-- Borrow-scenario state after `Delete(80)`: node 7 (`[40]`) is now linked from both internal nodes 1 and 6, and node 4 (`[60]`) is unreachable -/
def bw11T : Tree Int :=
  { root := some 5, degree := 2, size := 9, height := 3,
    comparator := defaultCmp }

/-- Heap of `bw11T`. -/
def bw11H : Heap Int :=
  [ { keys := [10, 20], values := [100, 200], children := [], isLeaf := true, parent := some 1, size := 2, maxKeys := 3, minKeys := 1 },
    { keys := [30], values := [300], children := [0, 7], isLeaf := false, parent := some 5, size := 1, maxKeys := 3, minKeys := 1 },
    { keys := [100], values := [1000], children := [], isLeaf := true, parent := some 6, size := 1, maxKeys := 3, minKeys := 1 },
    { keys := [90, 100], values := [900, 1000], children := [], isLeaf := true, parent := some 6, size := 2, maxKeys := 3, minKeys := 1 },
    { keys := [60], values := [600], children := [], isLeaf := true, parent := some 1, size := 1, maxKeys := 3, minKeys := 1 },
    { keys := [50], values := [500], children := [1, 6], isLeaf := false, parent := none, size := 1, maxKeys := 3, minKeys := 1 },
    { keys := [70], values := [700], children := [7, 3], isLeaf := false, parent := some 5, size := 1, maxKeys := 3, minKeys := 1 },
    { keys := [40], values := [400], children := [], isLeaf := true, parent := some 6, size := 1, maxKeys := 3, minKeys := 1 } ]


/-- A heap whose root is an internal node with 1 key but 3 children — the
shape invariant `children = keys + 1` is violated — while every node is
sorted, within occupancy bounds, and has a correct parent pointer. -/
def shapeBadHeap : Heap Int :=
  [ { keys := [5], values := [50], children := [], isLeaf := true,
      parent := some 3, size := 1, maxKeys := 3, minKeys := 1 },
    { keys := [15], values := [150], children := [], isLeaf := true,
      parent := some 3, size := 1, maxKeys := 3, minKeys := 1 },
    { keys := [25], values := [250], children := [], isLeaf := true,
      parent := some 3, size := 1, maxKeys := 3, minKeys := 1 },
    { keys := [10], values := [100], children := [0, 1, 2], isLeaf := false,
      parent := none, size := 1, maxKeys := 3, minKeys := 1 } ]

/-- The tree owning `shapeBadHeap`. -/
def shapeBadTree : Tree Int :=
  { root := some 3, degree := 2, size := 4, height := 2, comparator := defaultCmp }

/-! ### What `validateNode` actually checks, as a graded predicate -/

/-- `Valid cmp h i isRoot d`: the checks `validateNode` performs succeed
within recursion depth `d` — non-root occupancy bounds, strict sortedness
under the comparator, and parent back-pointers of children.  Note the
absence of any condition relating children count to key count. -/
inductive Valid {V : Type} (cmp : Int → Int → Int) (h : Heap V) :
    Nat → Bool → Nat → Prop where
  | leaf (i : Nat) (isRoot : Bool) (d : Nat) (n : Node V) :
      h[i]? = some n →
      (isRoot = true ∨ (n.minKeys ≤ n.size ∧ n.size ≤ n.maxKeys)) →
      (∀ j, j + 1 < n.size →
        ∃ a b, n.keys[j]? = some a ∧ n.keys[j + 1]? = some b ∧
          cmp a b < 0) →
      n.isLeaf = true →
      Valid cmp h i isRoot d
  | node (i : Nat) (isRoot : Bool) (d : Nat) (n : Node V) :
      h[i]? = some n →
      (isRoot = true ∨ (n.minKeys ≤ n.size ∧ n.size ≤ n.maxKeys)) →
      (∀ j, j + 1 < n.size →
        ∃ a b, n.keys[j]? = some a ∧ n.keys[j + 1]? = some b ∧
          cmp a b < 0) →
      n.isLeaf = false →
      (∀ c ∈ n.children, ∃ cd, h[c]? = some cd ∧ cd.parent = some i) →
      (∀ c ∈ n.children, Valid cmp h c false d) →
      Valid cmp h i isRoot (d + 1)

/-! ### The structural/order invariant of well-formed subtrees

`Inv d h i l lo hi` says that heap `h` carries, rooted at id `i`, a
well-formed B-tree subtree of degree `d` whose node ids are exactly the
list `l` (pairwise distinct, so distinct subtrees never share nodes), and
whose keys all lie between the optional bounds `lo` and `hi`.  This is the
denotation of what `Insert` preserves; note that no occupancy bounds are
required (the root never has them) and parent pointers are not constrained
(the insert path never reads them). -/

/-- Optional lower bound. -/
def lbOk (lo : Option Int) (x : Int) : Prop :=
  match lo with
  | none => True
  | some a => a ≤ x

/-- Optional upper bound. -/
def ubOk (hi : Option Int) (x : Int) : Prop :=
  match hi with
  | none => True
  | some b => x ≤ b

/-- Well-formed subtree predicate (see section comment). -/
inductive Inv {V : Type} (d : Nat) (h : Heap V) :
    Nat → List Nat → Option Int → Option Int → Prop where
  | leaf (i : Nat) (n : Node V) (lo hi : Option Int) :
      h[i]? = some n →
      n.isLeaf = true →
      n.children = [] →
      n.size = n.keys.length →
      n.values.length = n.keys.length →
      n.maxKeys = 2 * d - 1 →
      n.minKeys = d - 1 →
      n.keys.Sorted (· ≤ ·) →
      (∀ x ∈ n.keys, lbOk lo x ∧ ubOk hi x) →
      Inv d h i [i] lo hi
  | node (i : Nat) (n : Node V) (css : List (List Nat)) (lo hi : Option Int) :
      h[i]? = some n →
      n.isLeaf = false →
      n.size = n.keys.length →
      n.values.length = n.keys.length →
      n.children.length = n.size + 1 →
      n.maxKeys = 2 * d - 1 →
      n.minKeys = d - 1 →
      n.keys.Sorted (· ≤ ·) →
      (∀ x ∈ n.keys, lbOk lo x ∧ ubOk hi x) →
      css.length = n.children.length →
      (∀ j, j < n.children.length →
        Inv d h (n.children.getD j 0) (css.getD j [])
          ((lo :: n.keys.map some).getD j none)
          ((n.keys.map some ++ [hi]).getD j none)) →
      (i :: css.flatten).Nodup →
      Inv d h i (i :: css.flatten) lo hi

/-- The key/value entries of the subtree rooted at `i`, fuel-bounded. -/
def entriesF {V : Type} (h : Heap V) (i : Nat) : Nat → Option (List (Int × V))
  | 0 => none
  | fuel + 1 =>
    match h[i]? with
    | none => none
    | some n =>
      if n.isLeaf then some (n.keys.zip n.values)
      else
        match n.children.mapM (fun c => entriesF h c fuel) with
        | none => none
        | some es => some (n.keys.zip n.values ++ es.flatten)

/-- The entries of the subtree rooted at `i` (with canonical fuel, which is
sufficient whenever `Inv` holds). -/
def entriesN {V : Type} (h : Heap V) (i : Nat) : List (Int × V) :=
  (entriesF h i (h.length + 1)).getD []

/-- The entries of a whole tree. -/
def entriesT {V : Type} (t : Tree V) (h : Heap V) : List (Int × V) :=
  match t.root with
  | none => []
  | some r => entriesN h r

/-- Well-formedness of a whole tree as maintained by the insert path:
default comparator, valid degree, and either an empty tree of size zero or
a root subtree satisfying `Inv` with the tree size equal to the number of
entries. -/
def TreeWf {V : Type} (t : Tree V) (h : Heap V) : Prop :=
  t.comparator = defaultCmp ∧ 2 ≤ t.degree ∧
    ((t.root = none ∧ t.size = 0) ∨
      (∃ r l, t.root = some r ∧ Inv t.degree h r l none none ∧
        t.size = (entriesN h r).length))

/-- The split transformation exactly as the specification words it: the
key/value at local position `deg − 1` (the median) of the full child is
promoted into the parent at `index`; a new sibling node receives the upper
`deg − 1` keys/values (and, if the child is internal, the upper `deg`
children, each re-parented to the sibling); the child is truncated to its
lower `deg − 1` keys/values (and, if internal, its lower `deg` children);
the sibling is inserted into the parent's children immediately after the
child. -/
def splitChildSpec {V : Type} (deg : Nat) (h : Heap V) (pId : Nat)
    (index : Nat) : Res (Heap V) := do
  let p ← getN h pId
  let cId ← elemAt p.children index
  let cd ← getN h cId
  let medianKey ← elemAt cd.keys (deg - 1)
  let medianValue ← elemAt cd.values (deg - 1)
  let sibId := h.length
  let sibling : Node V :=
    { keys := cd.keys.drop deg
      values := cd.values.drop deg
      children := if cd.isLeaf then [] else cd.children.drop deg
      isLeaf := cd.isLeaf
      parent := some pId
      size := deg - 1
      maxKeys := 2 * deg - 1
      minKeys := deg - 1 }
  let h := h ++ [sibling]
  let h ←
    if cd.isLeaf then pure h
    else setParents h (cd.children.drop deg) (some sibId)
  let h := setN h cId
    { cd with
      keys := cd.keys.take (deg - 1)
      values := cd.values.take (deg - 1)
      size := deg - 1
      children := if cd.isLeaf then cd.children else cd.children.take deg }
  let p ← getN h pId
  let h := setN h pId
    { p with
      keys := insertAt p.keys index medianKey
      values := insertAt p.values index medianValue
      children := insertAt p.children (index + 1) sibId
      size := p.keys.length + 1 }
  .ok h

/-- Agreement of two nodes on every field except the parent back-pointer.
The read-only structure of a subtree (`Inv`, `entriesF`) never consults
`parent`, so re-parenting preserves both. -/
def sameNP {V : Type} (a b : Node V) : Prop :=
  a.keys = b.keys ∧ a.values = b.values ∧ a.children = b.children ∧
    a.isLeaf = b.isLeaf ∧ a.size = b.size ∧ a.maxKeys = b.maxKeys ∧
    a.minKeys = b.minKeys

/-! ## Theorems -/

/-- C10: `Delete` on an empty tree (nil root) returns immediately for any
key, leaving the tree record and the heap entirely unchanged — root stays
nil and size and height keep their prior values. -/
theorem delete_empty_tree_noop {V : Type} (t : Tree V) (h : Heap V)
    (key : Int) (hr : t.root = none) : DeleteOp t h key = .ok (t, h) := by
  simp [DeleteOp, Delete, hr]

/-- Witness for `delete_empty_tree_noop`: a fresh degree-2 tree with an
empty heap. -/
theorem delete_empty_tree_noop_witness :
    fresh2.root = none ∧ DeleteOp fresh2 ([] : Heap Int) 7 = .ok (fresh2, []) :=
  ⟨rfl, delete_empty_tree_noop fresh2 [] 7 rfl⟩

/-- C1 (evaluation at the failing input): inserting the single entry
`(5, 50)` into a fresh degree-2 tree yields `oneT`/`oneH`; deleting the
absent key `7` then returns normally (no failure) and leaves the root
pointer, the height and the whole node heap unchanged — but `Tree.Size`
drops from 1 to 0 even though the entry `(5, 50)` is still present, because
`Delete` decrements the size unconditionally. -/
theorem delete_absent_key_decrements_size :
    Insert fresh2 ([] : Heap Int) 5 50 4 = .ok (oneT, oneH) ∧
    Delete oneT oneH 7 4 = .ok (oneT0, oneH) ∧
    oneT.size = 1 ∧ oneT0.size = 0 ∧ oneT0.root = oneT.root ∧
    oneT0.height = oneT.height ∧ ((1 : Int) ≠ 0) :=
  ⟨rfl, rfl, rfl, rfl, rfl, rfl, by decide⟩

/-- C3 (evaluation at the failing input): after the completed public calls
`Insert(5, 50)` and `Delete(7)` on a fresh degree-2 tree, the sum of the
node-local `Size` fields over the nodes reachable from the root is 1 while
`Tree.Size` is 0. -/
theorem tree_size_differs_from_sum_of_node_sizes :
    Insert fresh2 ([] : Heap Int) 5 50 4 = .ok (oneT, oneH) ∧
    Delete oneT oneH 7 4 = .ok (oneT0, oneH) ∧
    sumSizes oneH oneT0.root 3 = .ok 1 ∧
    oneT0.size = 0 ∧ ((0 : Int) ≠ 1) :=
  ⟨rfl, rfl, rfl, rfl, by decide⟩

/-- C2 (evaluation at the failing input): with degree 2, inserting
10, 20, 30, 40 and deleting 40 leaves the root `[20]` with leaf children
`[10]` and `[30]` and exactly one occurrence of key 20 (state `mg5`).
`Delete(20)` then takes the merge branch of `deleteInternal` with both
children minimal: the children are merged with the separator 20 moved down
— but the recursive deletion of 20 from the merged node never happens on
this (root) path, so `Search(20)` still finds the key afterwards while
`Tree.Size` was decremented to 2. -/
theorem delete_internal_merge_keeps_key :
    Insert fresh2 ([] : Heap Int) 10 100 6 = .ok (mg1T, mg1H) ∧
    Insert mg1T mg1H 20 200 6 = .ok (mg2T, mg2H) ∧
    Insert mg2T mg2H 30 300 6 = .ok (mg3T, mg3H) ∧
    Insert mg3T mg3H 40 400 6 = .ok (mg4T, mg4H) ∧
    Delete mg4T mg4H 40 6 = .ok (mg5T, mg5H) ∧
    entriesT mg5T mg5H = [(20, 200), (10, 100), (30, 300)] ∧
    Delete mg5T mg5H 20 6 = .ok (mg6T, mg6H) ∧
    Search mg6T mg6H 20 5 = .ok (some 200) ∧
    mg6T.size = 2 :=
  ⟨rfl, rfl, rfl, rfl, rfl, rfl, rfl, rfl, rfl⟩

/-- C6 (evaluation at the failing input): with degree 2, inserting
100, 90, ..., 10 builds a tree (state `bw10`) whose root `[70]` has
internal children `[30, 50]` (left, with leaf grandchildren `[10, 20]`,
`[40]`, `[60]`) and `[90]` (right).  `Delete(80)` first merges the right
grandchildren, then balances the emptied internal right child by borrowing
from its internal left sibling — and `borrowFromLeftSibling` moves the
sibling's second-to-last child `[40]` across (leaving it also linked from
the sibling) while dropping the sibling's true last child `[60]`.  The key
60, never deleted, is unreachable afterwards: `Search(60)` reports
not-found, and node 7 (`[40]`) hangs from both internal nodes 1 and 6. -/
theorem borrow_from_left_internal_corrupts_tree :
    Insert fresh2 ([] : Heap Int) 100 1000 6 = .ok (bw1T, bw1H) ∧
    Insert bw1T bw1H 90 900 6 = .ok (bw2T, bw2H) ∧
    Insert bw2T bw2H 80 800 6 = .ok (bw3T, bw3H) ∧
    Insert bw3T bw3H 70 700 6 = .ok (bw4T, bw4H) ∧
    Insert bw4T bw4H 60 600 6 = .ok (bw5T, bw5H) ∧
    Insert bw5T bw5H 50 500 6 = .ok (bw6T, bw6H) ∧
    Insert bw6T bw6H 40 400 6 = .ok (bw7T, bw7H) ∧
    Insert bw7T bw7H 30 300 6 = .ok (bw8T, bw8H) ∧
    Insert bw8T bw8H 20 200 6 = .ok (bw9T, bw9H) ∧
    Insert bw9T bw9H 10 100 6 = .ok (bw10T, bw10H) ∧
    Search bw10T bw10H 60 5 = .ok (some 600) ∧
    Delete bw10T bw10H 80 10 = .ok (bw11T, bw11H) ∧
    Search bw11T bw11H 60 5 = .ok none ∧
    (bw11H[1]?).map Node.children = some [0, 7] ∧
    (bw11H[6]?).map Node.children = some [7, 3] ∧
    (bw11H[4]?).map Node.keys = some [60] :=
  ⟨rfl, rfl, rfl, rfl, rfl, rfl, rfl, rfl, rfl, rfl, rfl, rfl, rfl, rfl,
    rfl, rfl⟩

/-- C9 (counterexample): `NewTree` with the invalid degree 1 does not
return a recoverable error result — it panics through `Logger.Panicf`
(a fatal process abort), embedded as the `fatal` failure kind. -/
theorem newtree_invalid_degree_panics :
    NewTree Int 1 = .error (.fatal "degree must be at least 2") ∧
    (∀ m, Failure.fatal "degree must be at least 2" ≠ Failure.err m) := by
  refine ⟨rfl, fun m hm => by cases hm⟩

/-- C9 (amended): for every degree below 2, `NewTree` aborts fatally with
the message `degree must be at least 2`; the recoverable, distinguishable
error result for an invalid degree exists only in the configuration loader,
which rejects a `TREE_DEGREE` below 2 with a recoverable error. -/
theorem newtree_invalid_degree_fatal_config_recoverable (d : Int)
    (hd : d < 2) :
    NewTree Int d = .error (.fatal "degree must be at least 2") ∧
    (∀ s lvl path, atoi s = some d → s ≠ "" →
      LoadConfig s lvl path =
        .error (.err "invalid TREE_DEGREE (must be at least 2)")) := by
  constructor
  · simp [NewTree, hd]
  · intro s lvl path hparse hs
    simp only [LoadConfig, if_neg hs, hparse, if_pos hd]
    rfl

/-- Witness for `newtree_invalid_degree_fatal_config_recoverable` at
degree 1 and environment string `"1"`. -/
theorem newtree_invalid_degree_fatal_config_recoverable_witness :
    NewTree Int 1 = .error (.fatal "degree must be at least 2") ∧
    LoadConfig "1" "" "" =
      .error (.err "invalid TREE_DEGREE (must be at least 2)") := by
  have h := newtree_invalid_degree_fatal_config_recoverable 1 (by decide)
  exact ⟨h.1, h.2 "1" "" "" (by rfl) (by decide)⟩

/-- C8 (counterexample): `ValidateTree` returns `true` on a tree whose
root is an internal node with 1 key but 3 children (shape invariant
`children = keys + 1` violated), because `validateNode` never checks the
children count. -/
theorem validate_misses_shape_violation :
    ValidateTree shapeBadTree shapeBadHeap 3 = .ok true ∧
    (shapeBadHeap[3]?).map
        (fun n => (n.isLeaf, n.children.length, n.keys.length + 1)) =
      some (false, 3, 2) ∧
    ((3 : Nat) ≠ 2) :=
  ⟨rfl, rfl, by decide⟩


/-! ### Small reduction helpers for the error monad -/

/-- Bind propagates errors. -/
theorem error_bind {ε : Type u} {α β : Type u} (e : ε)
    (f : α → Except ε β) : (Except.error e >>= f) = Except.error e := rfl

/-- Bind on a success applies the continuation. -/
theorem ok_bind {ε : Type u} {α β : Type u} (a : α)
    (f : α → Except ε β) : (Except.ok a >>= f) = f a := rfl

/-- `elemAt` on an in-range index. -/
theorem elemAt_eq_ok {α : Type u} {xs : List α} {i : Nat} {a : α}
    (ha : xs[i]? = some a) : elemAt xs i = .ok a := by
  unfold elemAt
  rw [ha]

/-- `elemAt` on an out-of-range index. -/
theorem elemAt_eq_err {α : Type u} {xs : List α} {i : Nat}
    (ha : xs[i]? = none) :
    elemAt xs i = .error (.fatal "index out of range") := by
  unfold elemAt
  rw [ha]

/-- `getN` on a live pointer. -/
theorem getN_eq_ok {V : Type} {h : Heap V} {i : Nat} {n : Node V}
    (hn : h[i]? = some n) : getN h i = .ok n := by
  unfold getN
  rw [hn]

/-- `getN` on a dangling pointer. -/
theorem getN_eq_err {V : Type} {h : Heap V} {i : Nat}
    (hn : h[i]? = none) :
    getN h i = .error (.fatal "invalid node reference") := by
  unfold getN
  rw [hn]

/-! ### Characterization of `validateNode` (for C8) -/

/-- What the sortedness loop establishes: starting at position `i + 1` with
`r` iterations left, it returns `true` exactly when every adjacent pair in
the window is strictly increasing under the comparator. -/
theorem sortedScanGo_ok_true_iff (cmp : Int → Int → Int) (keys : List Int) :
    ∀ (r i : Nat), sortedScanGo cmp keys (i + 1) r = .ok true ↔
      (∀ j, i ≤ j → j < i + r →
        ∃ a b, keys[j]? = some a ∧ keys[j + 1]? = some b ∧
          cmp a b < 0) := by
  intro r
  induction r with
  | zero =>
    intro i
    simp only [sortedScanGo]
    constructor
    · intro _ j h1 h2
      omega
    · intro _
      trivial
  | succ r ih =>
    intro i
    simp only [sortedScanGo, Nat.add_sub_cancel]
    constructor
    · intro hok
      rcases ha : keys[i]? with _ | a
      · rw [elemAt_eq_err ha, error_bind] at hok
        cases hok
      rcases hb : keys[i + 1]? with _ | b
      · rw [elemAt_eq_ok ha, ok_bind, elemAt_eq_err hb, error_bind] at hok
        cases hok
      rw [elemAt_eq_ok ha, ok_bind, elemAt_eq_ok hb, ok_bind] at hok
      by_cases hc : cmp a b ≥ 0
      · rw [if_pos hc] at hok
        cases hok
      · rw [if_neg hc] at hok
        have hrest := (ih (i + 1)).mp hok
        intro j hij hjr
        rcases Nat.eq_or_lt_of_le hij with rfl | hlt
        · exact ⟨a, b, ha, hb, by omega⟩
        · exact hrest j hlt (by omega)
    · intro hall
      obtain ⟨a, b, ha, hb, hc⟩ := hall i le_rfl (by omega)
      rw [elemAt_eq_ok ha, ok_bind, elemAt_eq_ok hb, ok_bind,
        if_neg (by omega : ¬ cmp a b ≥ 0)]
      exact (ih (i + 1)).mpr (fun j h1 h2 => hall j (by omega) (by omega))

/-- The child-validation fold of `validateNode` returns `true` exactly when
every child dereferences, points back to the parent, and itself validates
to `true`. -/
theorem validateFold_ok_true_iff {V : Type} (cmp : Int → Int → Int)
    (h : Heap V) (i : Nat) (fuel : Nat) :
    ∀ (cs : List Nat),
      (cs.foldlM
        (fun acc c =>
          if acc = false then pure false
          else do
            let cd ← getN h c
            if cd.parent ≠ some i then pure false
            else validateNode cmp h c false fuel)
        true) = .ok true ↔
      (∀ c ∈ cs, ∃ cd, h[c]? = some cd ∧ cd.parent = some i ∧
        validateNode cmp h c false fuel = .ok true) := by
  have hfalse : ∀ (cs : List Nat),
      (cs.foldlM
        (fun acc c =>
          if acc = false then pure false
          else do
            let cd ← getN h c
            if cd.parent ≠ some i then pure false
            else validateNode cmp h c false fuel)
        false) = .ok false := by
    intro cs
    induction cs with
    | nil => rfl
    | cons c cs ih => simpa [List.foldlM] using ih
  intro cs
  induction cs with
  | nil =>
    constructor
    · intro _ c hc
      cases hc
    · intro _
      rfl
  | cons c cs ih =>
    simp only [List.foldlM, Bool.true_eq_false, if_false, List.mem_cons]
    constructor
    · intro hok
      rcases hc : h[c]? with _ | cd
      · rw [getN_eq_err hc] at hok
        simp only [error_bind] at hok
        cases hok
      rw [getN_eq_ok hc] at hok
      simp only [ok_bind] at hok
      by_cases hp : cd.parent = some i
      · rw [if_neg (by simpa using hp)] at hok
        rcases hv : validateNode cmp h c false fuel with e | b
        · rw [hv] at hok
          simp only [error_bind] at hok
          cases hok
        rw [hv] at hok
        simp only [ok_bind] at hok
        cases b with
        | false =>
          rw [hfalse cs] at hok
          cases hok
        | true =>
          intro d hd
          rcases hd with rfl | hmem
          · exact ⟨cd, hc, hp, hv⟩
          · exact (ih.mp hok) d hmem
      · rw [if_pos (by simpa using hp)] at hok
        cases (hfalse cs).symm.trans hok
    · intro hall
      obtain ⟨cd, hc, hp, hv⟩ := hall c (Or.inl rfl)
      rw [getN_eq_ok hc]
      simp only [ok_bind]
      rw [if_neg (by simpa using hp), hv]
      simp only [ok_bind]
      exact ih.mpr (fun d hd => hall d (Or.inr hd))

/-- Soundness: when `validateNode` answers `true`, the `Valid` conditions
hold (graded by the fuel used). -/
theorem validateNode_sound {V : Type} (cmp : Int → Int → Int) (h : Heap V) :
    ∀ (fl : Nat) (i : Nat) (isRoot : Bool),
      validateNode cmp h i isRoot fl = .ok true →
      Valid cmp h i isRoot fl := by
  intro fl
  induction fl with
  | zero =>
    intro i isRoot hok
    cases hok
  | succ fuel ih =>
    intro i isRoot hok
    simp only [validateNode] at hok
    rcases hn : h[i]? with _ | n
    · rw [getN_eq_err hn, error_bind] at hok
      cases hok
    rw [getN_eq_ok hn, ok_bind] at hok
    by_cases hocc : isRoot = false ∧ (n.size < n.minKeys ∨ n.size > n.maxKeys)
    · rw [if_pos hocc] at hok
      cases hok
    rw [if_neg hocc] at hok
    have hocc' : isRoot = true ∨ (n.minKeys ≤ n.size ∧ n.size ≤ n.maxKeys) := by
      rcases isRoot with _ | _
      · right
        have h1 : ¬ (n.size < n.minKeys ∨ n.size > n.maxKeys) :=
          fun a => hocc ⟨rfl, a⟩
        omega
      · left
        rfl
    rcases hs : sortedScan cmp n.keys n.size 1 with e | b
    · rw [hs, error_bind] at hok
      cases hok
    rw [hs, ok_bind] at hok
    cases b with
    | false => cases hok
    | true =>
      simp only [Bool.true_eq_false, if_false] at hok
      have hsorted : ∀ j, j + 1 < n.size →
          ∃ a b, n.keys[j]? = some a ∧ n.keys[j + 1]? = some b ∧
            cmp a b < 0 := by
        have hiff := (sortedScanGo_ok_true_iff cmp n.keys (n.size - 1) 0).mp
          (by
            have : sortedScan cmp n.keys n.size 1 =
                sortedScanGo cmp n.keys 1 (n.size - 1) := rfl
            rw [this] at hs
            simpa using hs)
        intro j hj
        exact hiff j (Nat.zero_le j) (by omega)
      by_cases hleaf : n.isLeaf = true
      · rw [if_pos hleaf] at hok
        exact Valid.leaf i isRoot (fuel + 1) n hn hocc' hsorted hleaf
      · rw [if_neg hleaf] at hok
        have hkids := (validateFold_ok_true_iff cmp h i fuel n.children).mp hok
        exact Valid.node i isRoot fuel n hn hocc' hsorted
          (by simpa using hleaf)
          (fun c hc => by
            obtain ⟨cd, h1, h2, _⟩ := hkids c hc
            exact ⟨cd, h1, h2⟩)
          (fun c hc => by
            obtain ⟨cd, h1, h2, h3⟩ := hkids c hc
            exact ih c false h3)

/-- Completeness: the `Valid` conditions at depth `d` make `validateNode`
answer `true` for every fuel above `d`. -/
theorem validateNode_complete {V : Type} (cmp : Int → Int → Int)
    (h : Heap V) {d : Nat} {i : Nat} {isRoot : Bool}
    (hv : Valid cmp h i isRoot d) :
    ∀ fl, d < fl → validateNode cmp h i isRoot fl = .ok true := by
  induction hv with
  | leaf i isRoot d n hn hocc hsorted hleaf =>
    intro fl hfl
    rcases fl with _ | g
    · omega
    simp only [validateNode]
    rw [getN_eq_ok hn]
    simp only [ok_bind]
    rw [if_neg (by
      rintro ⟨h1, h2⟩
      rcases hocc with h3 | h3
      · rw [h1] at h3
        cases h3
      · omega)]
    rw [show sortedScan cmp n.keys n.size 1 = .ok true from
      (sortedScanGo_ok_true_iff cmp n.keys (n.size - 1) 0).mpr
        (fun j h1 h2 => hsorted j (by omega))]
    simp only [ok_bind, Bool.true_eq_false, if_false]
    rw [if_pos hleaf]
  | node i isRoot d n hn hocc hsorted hleaf hparents _ ih =>
    intro fl hfl
    rcases fl with _ | g
    · omega
    simp only [validateNode]
    rw [getN_eq_ok hn]
    simp only [ok_bind]
    rw [if_neg (by
      rintro ⟨h1, h2⟩
      rcases hocc with h3 | h3
      · rw [h1] at h3
        cases h3
      · omega)]
    rw [show sortedScan cmp n.keys n.size 1 = .ok true from
      (sortedScanGo_ok_true_iff cmp n.keys (n.size - 1) 0).mpr
        (fun j h1 h2 => hsorted j (by omega))]
    simp only [ok_bind, Bool.true_eq_false, if_false]
    rw [if_neg (by simp [hleaf])]
    exact (validateFold_ok_true_iff cmp h i g n.children).mpr
      (fun c hc => by
        obtain ⟨cd, h1, h2⟩ := hparents c hc
        exact ⟨cd, h1, h2, ih c hc g (by omega)⟩)

/-- C8 (amended): `ValidateTree` (run with a sufficient recursion budget)
answers `true` exactly when every node reachable from the root satisfies
the three conditions `validateNode` actually checks — strict sortedness of
the keys under the comparator, occupancy bounds `minKeys ≤ size ≤ maxKeys`
on non-root nodes, and each child's parent pointer referencing its parent
(the `Valid` predicate).  The shape condition children-count = keys-count
+ 1 (and leaves having no children) is not among the checks, so a tree
violating only that invariant still validates as `true`. -/
theorem validate_tree_characterization {V : Type} (t : Tree V) (h : Heap V) :
    (∃ fl, ValidateTree t h fl = .ok true) ↔
      (t.root = none ∨
        ∃ r d, t.root = some r ∧ Valid t.comparator h r true d) := by
  constructor
  · rintro ⟨fl, hfl⟩
    rcases ht : t.root with _ | r
    · exact Or.inl rfl
    · right
      simp only [ValidateTree, ht] at hfl
      exact ⟨r, fl, rfl, validateNode_sound t.comparator h fl r true hfl⟩
  · rintro (ht | ⟨r, d, ht, hv⟩)
    · exact ⟨0, by simp [ValidateTree, ht]⟩
    · exact ⟨d + 1, by
        simp only [ValidateTree, ht]
        exact validateNode_complete t.comparator h hv (d + 1) (by omega)⟩

/-! ### Basic facts about the `Inv` well-formedness predicate -/

/-- A member list is no longer than the flattening of its container. -/
theorem length_le_flatten {α : Type u} (xs : List (List α)) (x : List α)
    (hx : x ∈ xs) : x.length ≤ xs.flatten.length := by
  induction xs with
  | nil => cases hx
  | cons y ys ih =>
    rcases List.mem_cons.mp hx with rfl | hx2
    · simp [List.flatten_cons]
    · simp only [List.flatten_cons, List.length_append]
      have := ih hx2
      omega

/-- The id list of a subtree starts with its root id. -/
theorem Inv.head_eq {V : Type} {d : Nat} {h : Heap V} {i : Nat}
    {l : List Nat} {lo hi : Option Int} (hv : Inv d h i l lo hi) :
    ∃ l2, l = i :: l2 := by
  cases hv
  · exact ⟨[], rfl⟩
  · exact ⟨_, rfl⟩

/-- The root id belongs to the id list. -/
theorem Inv.self_mem {V : Type} {d : Nat} {h : Heap V} {i : Nat}
    {l : List Nat} {lo hi : Option Int} (hv : Inv d h i l lo hi) :
    i ∈ l := by
  obtain ⟨l2, rfl⟩ := hv.head_eq
  exact List.mem_cons_self i l2

/-- The root node dereferences. -/
theorem Inv.get_some {V : Type} {d : Nat} {h : Heap V} {i : Nat}
    {l : List Nat} {lo hi : Option Int} (hv : Inv d h i l lo hi) :
    ∃ n, h[i]? = some n := by
  cases hv with
  | leaf i n lo hi h1 => exact ⟨n, h1⟩
  | node i n css lo hi h1 => exact ⟨n, h1⟩

/-- Every id in a subtree's id list is a live heap index. -/
theorem Inv.mem_lt {V : Type} {d : Nat} {h : Heap V} :
    ∀ {i : Nat} {l : List Nat} {lo hi : Option Int}, Inv d h i l lo hi →
      ∀ j ∈ l, j < h.length := by
  intro i l lo hi hv
  induction hv with
  | leaf i n lo hi h1 =>
    intro j hj
    rcases List.mem_singleton.mp hj with rfl
    exact (List.getElem?_eq_some.mp h1).1
  | node i n css lo hi h1 h2 h3 h4 h5 h6 h7 h8 h9 h10 h11 h12 ih =>
    intro j hj
    rcases List.mem_cons.mp hj with rfl | hj2
    · exact (List.getElem?_eq_some.mp h1).1
    · obtain ⟨cs, hcs, hjcs⟩ := List.mem_flatten.mp hj2
      obtain ⟨k, hk, hcsk⟩ := List.mem_iff_getElem.mp hcs
      have hklen : k < n.children.length := by omega
      have hgd : css.getD k [] = cs := by
        rw [List.getD_eq_getElem css [] hk, hcsk]
      exact ih k hklen j (hgd ▸ hjcs)

/-- The id list of a subtree has no duplicates. -/
theorem Inv.nodup {V : Type} {d : Nat} {h : Heap V} {i : Nat}
    {l : List Nat} {lo hi : Option Int} (hv : Inv d h i l lo hi) :
    l.Nodup := by
  cases hv with
  | leaf => exact List.nodup_cons.mpr ⟨by simp, List.nodup_nil⟩
  | node i n css lo hi h1 h2 h3 h4 h5 h6 h7 h8 h9 h10 h11 h12 => exact h12

/-- The id list is no longer than the heap. -/
theorem Inv.length_le {V : Type} {d : Nat} {h : Heap V} {i : Nat}
    {l : List Nat} {lo hi : Option Int} (hv : Inv d h i l lo hi) :
    l.length ≤ h.length := by
  classical
  have hnd := hv.nodup
  have hsub : l.toFinset ⊆ Finset.range h.length := by
    intro j hj
    exact Finset.mem_range.mpr (hv.mem_lt j (List.mem_toFinset.mp hj))
  have := Finset.card_le_card hsub
  rwa [List.toFinset_card_of_nodup hnd, Finset.card_range] at this

/-- `Inv` only looks at the heap cells named in its id list. -/
theorem Inv.frame {V : Type} {d : Nat} {h h' : Heap V} :
    ∀ {i : Nat} {l : List Nat} {lo hi : Option Int}, Inv d h i l lo hi →
      (∀ j ∈ l, h'[j]? = h[j]?) → Inv d h' i l lo hi := by
  intro i l lo hi hv
  induction hv with
  | leaf i n lo hi h1 h2 h3 h4 h5 h6 h7 h8 h9 =>
    intro hag
    exact Inv.leaf i n lo hi ((hag i (by simp)).trans h1) h2 h3 h4 h5 h6 h7
      h8 h9
  | node i n css lo hi h1 h2 h3 h4 h5 h6 h7 h8 h9 h10 h11 h12 ih =>
    intro hag
    refine Inv.node i n css lo hi ((hag i (by simp)).trans h1) h2 h3 h4 h5
      h6 h7 h8 h9 h10 ?_ h12
    intro j hj
    refine ih j hj ?_
    intro j' hj'
    refine hag j' ?_
    have hjlen : j < css.length := by omega
    have hgd : css.getD j [] = css[j] := List.getD_eq_getElem css [] hjlen
    exact List.mem_cons_of_mem i
      (List.mem_flatten.mpr ⟨css[j], List.getElem_mem hjlen, hgd ▸ hj'⟩)

/-! ### Characterizations of the scan loops and the invariant checker -/

/-- `scanFromRight` run on a window inside the key list succeeds and
returns the position after the last key not above the target: everything
from the position on (within the window) compares above the key, and the
key just before the position (if any) does not. -/
theorem scanFromRight_ok (cmp : Int → Int → Int) (keys : List Int)
    (key : Int) :
    ∀ n, n ≤ keys.length →
      ∃ p, scanFromRight cmp keys key n = .ok p ∧ p ≤ n ∧
        (∀ j, p ≤ j → j < n → ∃ a, keys[j]? = some a ∧ cmp a key > 0) ∧
        (p = 0 ∨ ∃ a, keys[p - 1]? = some a ∧ ¬ cmp a key > 0) := by
  intro n
  induction n with
  | zero =>
    intro _
    exact ⟨0, rfl, le_refl 0, fun j h1 h2 => by omega, Or.inl rfl⟩
  | succ n ih =>
    intro hn
    have hlt : n < keys.length := by omega
    have hk : keys[n]? = some keys[n] := List.getElem?_eq_getElem hlt
    by_cases hc : cmp keys[n] key > 0
    · obtain ⟨p, hp, hple, hupper, hlower⟩ := ih (by omega)
      refine ⟨p, ?_, by omega, ?_, hlower⟩
      · simp only [scanFromRight, hk]
        rw [if_pos hc]
        exact hp
      · intro j h1 h2
        rcases Nat.lt_or_ge j n with hj | hj
        · exact hupper j h1 hj
        · have : j = n := by omega
          exact this ▸ ⟨keys[n], hk, hc⟩
    · refine ⟨n + 1, ?_, le_refl _, fun j h1 h2 => by omega,
        Or.inr ⟨keys[n], hk, hc⟩⟩
      simp only [scanFromRight, hk]
      rw [if_neg hc]

/-- `scanFromLeftGo` on a window inside the key list succeeds and returns
the first position in the window whose key is not below the target. -/
theorem scanFromLeftGo_ok (cmp : Int → Int → Int) (keys : List Int)
    (key : Int) :
    ∀ (r i : Nat), i + r ≤ keys.length →
      ∃ p, scanFromLeftGo cmp keys key i r = .ok p ∧ i ≤ p ∧ p ≤ i + r ∧
        (∀ j, i ≤ j → j < p → ∃ a, keys[j]? = some a ∧ cmp a key < 0) ∧
        (p = i + r ∨ ∃ a, keys[p]? = some a ∧ ¬ cmp a key < 0) := by
  intro r
  induction r with
  | zero =>
    intro i _
    exact ⟨i, rfl, le_refl i, by omega, fun j h1 h2 => by omega,
      Or.inl (by omega)⟩
  | succ r ih =>
    intro i hir
    have hlt : i < keys.length := by omega
    have hk : keys[i]? = some keys[i] := List.getElem?_eq_getElem hlt
    by_cases hc : cmp keys[i] key < 0
    · obtain ⟨p, hp, hip, hpr, hbelow, hstop⟩ := ih (i + 1) (by omega)
      refine ⟨p, ?_, by omega, by omega, ?_, ?_⟩
      · simp only [scanFromLeftGo, hk]
        rw [if_pos hc]
        exact hp
      · intro j h1 h2
        rcases Nat.lt_or_ge j (i + 1) with hj | hj
        · have : j = i := by omega
          exact this ▸ ⟨keys[i], hk, hc⟩
        · exact hbelow j hj h2
      · rcases hstop with hstop | hstop
        · exact Or.inl (by omega)
        · exact Or.inr hstop
    · refine ⟨i, ?_, le_refl i, by omega, fun j h1 h2 => by omega,
        Or.inr ⟨keys[i], hk, hc⟩⟩
      simp only [scanFromLeftGo, hk]
      rw [if_neg hc]

/-- The children fold of `checkInvariants` succeeds when every child check
does. -/
theorem checkFold_ok {V : Type} (h : Heap V) (g : Nat) :
    ∀ (cs : List Nat),
      (∀ c ∈ cs, checkInvariants h (some c) g = .ok ()) →
      (cs.foldlM (fun _ c => checkInvariants h (some c) g) ()) = .ok () := by
  intro cs
  induction cs with
  | nil => intro _; rfl
  | cons c cs ih =>
    intro hall
    simp only [List.foldlM]
    rw [hall c (List.mem_cons_self c cs)]
    simp only [ok_bind]
    exact ih (fun c hc => hall c (List.mem_cons_of_mem _ hc))

/-- On a well-formed subtree, `checkInvariants` passes whenever the fuel
covers the subtree's node count. -/
theorem checkInvariants_ok {V : Type} {d : Nat} {h : Heap V} :
    ∀ {i : Nat} {l : List Nat} {lo hi : Option Int}, Inv d h i l lo hi →
      ∀ fl, l.length ≤ fl → checkInvariants h (some i) fl = .ok () := by
  intro i l lo hi hv
  induction hv with
  | leaf i n lo hi h1 h2 h3 h4 h5 h6 h7 h8 h9 =>
    intro fl hfl
    rcases fl with _ | g
    · simp at hfl
    simp only [checkInvariants]
    rw [getN_eq_ok h1]
    simp only [ok_bind]
    rw [if_pos h2]
  | node i n css lo hi h1 h2 h3 h4 h5 h6 h7 h8 h9 h10 h11 h12 ih =>
    intro fl hfl
    rcases fl with _ | g
    · simp at hfl
    simp only [checkInvariants]
    rw [getN_eq_ok h1]
    simp only [ok_bind]
    rw [if_neg (by simp [h2]), if_neg (by omega)]
    refine checkFold_ok h g n.children ?_
    intro c hc
    obtain ⟨k, hk, hck⟩ := List.mem_iff_getElem.mp hc
    have hkcss : k < css.length := by omega
    have hgd : n.children.getD k 0 = c := by
      rw [List.getD_eq_getElem n.children 0 hk, hck]
    have hlen : (css.getD k []).length ≤ css.flatten.length := by
      rw [List.getD_eq_getElem css [] hkcss]
      exact length_le_flatten css css[k] (List.getElem_mem hkcss)
    have := ih k hk g (by
      have : (i :: css.flatten).length = css.flatten.length + 1 := by simp
      omega)
    rwa [hgd] at this

/-! ### The subtree entries function -/

/-- Unfolding `entriesF` at a dangling pointer. -/
theorem entriesF_none {V : Type} (h : Heap V) (i fl : Nat)
    (hn : h[i]? = none) : entriesF h i (fl + 1) = none := by
  simp [entriesF, hn]

/-- Unfolding `entriesF` at a leaf. -/
theorem entriesF_leaf {V : Type} (h : Heap V) (i fl : Nat) (n : Node V)
    (hn : h[i]? = some n) (hleaf : n.isLeaf = true) :
    entriesF h i (fl + 1) = some (n.keys.zip n.values) := by
  simp [entriesF, hn, hleaf]

/-- Unfolding `entriesF` at an internal node. -/
theorem entriesF_node {V : Type} (h : Heap V) (i fl : Nat) (n : Node V)
    (hn : h[i]? = some n) (hleaf : n.isLeaf = false) :
    entriesF h i (fl + 1) =
      (n.children.mapM (fun c => entriesF h c fl)).map
        (fun ls => n.keys.zip n.values ++ ls.flatten) := by
  simp only [entriesF, hn, hleaf, Bool.false_eq_true, if_false]
  rcases hm : n.children.mapM (fun c => entriesF h c fl) with _ | ls <;> rfl

/-- `mapM` over `Option` succeeds when it succeeds pointwise. -/
theorem mapM_exists_of_pointwise {α : Type u} {β : Type v}
    (f : α → Option β) :
    ∀ (cs : List α), (∀ c ∈ cs, ∃ b, f c = some b) →
      ∃ ls, cs.mapM f = some ls := by
  intro cs
  induction cs with
  | nil => intro _; exact ⟨[], rfl⟩
  | cons c cs ih =>
    intro hpt
    obtain ⟨b, hb⟩ := hpt c (List.mem_cons_self c cs)
    obtain ⟨ls, hls⟩ := ih (fun x hx => hpt x (List.mem_cons_of_mem c hx))
    exact ⟨b :: ls, by rw [List.mapM_cons, hb, hls]; rfl⟩

/-- `mapM` over `Option` computed pointwise. -/
theorem mapM_eq_map {α : Type u} {β : Type v} (f : α → Option β)
    (g : α → β) :
    ∀ (cs : List α), (∀ c ∈ cs, f c = some (g c)) →
      cs.mapM f = some (cs.map g) := by
  intro cs
  induction cs with
  | nil => intro _; rfl
  | cons c cs ih =>
    intro hall
    rw [List.mapM_cons, hall c (List.mem_cons_self c cs),
      ih (fun x hx => hall x (List.mem_cons_of_mem c hx))]
    rfl

/-- `mapM` over `Option` only depends on the function's values on the
list. -/
theorem mapM_congr {α : Type u} {β : Type v} {f g : α → Option β} :
    ∀ {cs : List α}, (∀ c ∈ cs, f c = g c) → cs.mapM f = cs.mapM g := by
  intro cs
  induction cs with
  | nil => intro _; rfl
  | cons c cs ih =>
    intro hall
    rw [List.mapM_cons, List.mapM_cons, hall c (List.mem_cons_self c cs),
      ih (fun x hx => hall x (List.mem_cons_of_mem c hx))]

/-- `mapM` of `entriesF`: one fuel step of monotonicity, given the
pointwise step. -/
theorem mapM_entriesF_succ {V : Type} (h : Heap V) (fl : Nat)
    (step : ∀ i es, entriesF h i fl = some es →
      entriesF h i (fl + 1) = some es) :
    ∀ (cs : List Nat) (ls : List (List (Int × V))),
      cs.mapM (fun c => entriesF h c fl) = some ls →
      cs.mapM (fun c => entriesF h c (fl + 1)) = some ls := by
  intro cs
  induction cs with
  | nil =>
    intro ls hls
    exact hls
  | cons c cs ih =>
    intro ls hls
    rw [List.mapM_cons] at hls ⊢
    rcases hc : entriesF h c fl with _ | es
    · rw [hc] at hls
      simp at hls
    rw [hc] at hls
    rcases hcs : cs.mapM (fun c => entriesF h c fl) with _ | ls2
    · rw [hcs] at hls
      simp at hls
    rw [hcs] at hls
    rw [step c es hc, ih ls2 hcs]
    exact hls

/-- More fuel never changes a successful `entriesF` computation. -/
theorem entriesF_succ {V : Type} (h : Heap V) :
    ∀ (fl : Nat) (i : Nat) (es : List (Int × V)),
      entriesF h i fl = some es → entriesF h i (fl + 1) = some es := by
  intro fl
  induction fl with
  | zero =>
    intro i es hok
    cases hok
  | succ fl ih =>
    intro i es hok
    rcases hn : h[i]? with _ | n
    · rw [entriesF_none h i fl hn] at hok
      cases hok
    by_cases hleaf : n.isLeaf = true
    · rw [entriesF_leaf h i fl n hn hleaf] at hok
      rw [entriesF_leaf h i (fl + 1) n hn hleaf]
      exact hok
    · have hleaf' : n.isLeaf = false := by
        simpa using hleaf
      rw [entriesF_node h i fl n hn hleaf'] at hok
      rw [entriesF_node h i (fl + 1) n hn hleaf']
      rcases hmap : n.children.mapM (fun c => entriesF h c fl) with _ | ls
      · rw [hmap] at hok
        cases hok
      rw [hmap] at hok
      rw [mapM_entriesF_succ h fl ih n.children ls hmap]
      exact hok

/-- Fuel monotonicity of `entriesF`. -/
theorem entriesF_mono {V : Type} (h : Heap V) {fl fl' : Nat}
    (hle : fl ≤ fl') {i : Nat} {es : List (Int × V)}
    (hok : entriesF h i fl = some es) : entriesF h i fl' = some es := by
  induction fl' with
  | zero =>
    have : fl = 0 := by omega
    rw [this] at hok
    cases hok
  | succ fl' ih =>
    rcases Nat.eq_or_lt_of_le hle with rfl | hlt
    · exact hok
    · exact entriesF_succ h fl' i es (ih (by omega))

/-- On a well-formed subtree, `entriesF` succeeds once the fuel covers the
subtree's node count. -/
theorem entriesF_exists {V : Type} {d : Nat} {h : Heap V} :
    ∀ {i : Nat} {l : List Nat} {lo hi : Option Int}, Inv d h i l lo hi →
      ∃ es, entriesF h i l.length = some es := by
  intro i l lo hi hv
  induction hv with
  | leaf i n lo hi h1 h2 h3 h4 h5 h6 h7 h8 h9 =>
    refine ⟨n.keys.zip n.values, ?_⟩
    rw [show ([i] : List Nat).length = 0 + 1 from rfl]
    exact entriesF_leaf h i 0 n h1 h2
  | node i n css lo hi h1 h2 h3 h4 h5 h6 h7 h8 h9 h10 h11 h12 ih =>
    have hpt : ∀ c ∈ n.children, ∃ es,
        entriesF h c css.flatten.length = some es := by
      intro c hc
      obtain ⟨k, hk, hck⟩ := List.mem_iff_getElem.mp hc
      have hkcss : k < css.length := by omega
      have hgd : n.children.getD k 0 = c := by
        rw [List.getD_eq_getElem n.children 0 hk, hck]
      obtain ⟨es, hes⟩ := ih k hk
      rw [hgd] at hes
      refine ⟨es, entriesF_mono h ?_ hes⟩
      rw [List.getD_eq_getElem css [] hkcss]
      exact length_le_flatten css css[k] (List.getElem_mem hkcss)
    obtain ⟨ls, hls⟩ :=
      mapM_exists_of_pointwise (fun c => entriesF h c css.flatten.length)
        n.children hpt
    refine ⟨n.keys.zip n.values ++ ls.flatten, ?_⟩
    rw [show (i :: css.flatten).length = css.flatten.length + 1 by simp]
    rw [entriesF_node h i css.flatten.length n h1 h2, hls]
    rfl

/-- On a well-formed subtree, any fuel covering the node count computes
the canonical entries. -/
theorem entriesF_eq_entriesN {V : Type} {d : Nat} {h : Heap V}
    {i : Nat} {l : List Nat} {lo hi : Option Int} (hv : Inv d h i l lo hi) :
    ∀ fl, l.length ≤ fl → entriesF h i fl = some (entriesN h i) := by
  obtain ⟨es, hes⟩ := entriesF_exists hv
  have hcanon : entriesF h i (h.length + 1) = some es :=
    entriesF_mono h (by have := hv.length_le; omega) hes
  intro fl hfl
  have heq : entriesN h i = es := by
    unfold entriesN
    rw [hcanon]
    rfl
  rw [heq]
  exact entriesF_mono h hfl hes

/-- `entriesF` only reads the heap cells in the subtree's id list. -/
theorem entriesF_congr {V : Type} {d : Nat} {h h' : Heap V} :
    ∀ {i : Nat} {l : List Nat} {lo hi : Option Int}, Inv d h i l lo hi →
      (∀ j ∈ l, h'[j]? = h[j]?) →
      ∀ fl, entriesF h' i fl = entriesF h i fl := by
  intro i l lo hi hv
  induction hv with
  | leaf i n lo hi h1 h2 h3 h4 h5 h6 h7 h8 h9 =>
    intro hag fl
    rcases fl with _ | g
    · rfl
    have h1' : h'[i]? = some n := (hag i (List.mem_cons_self i [])).trans h1
    rw [entriesF_leaf h' i g n h1' h2, entriesF_leaf h i g n h1 h2]
  | node i n css lo hi h1 h2 h3 h4 h5 h6 h7 h8 h9 h10 h11 h12 ih =>
    intro hag fl
    rcases fl with _ | g
    · rfl
    have h1' : h'[i]? = some n :=
      (hag i (List.mem_cons_self i css.flatten)).trans h1
    rw [entriesF_node h' i g n h1' h2, entriesF_node h i g n h1 h2]
    have hmapeq : n.children.mapM (fun c => entriesF h' c g) =
        n.children.mapM (fun c => entriesF h c g) := by
      refine mapM_congr ?_
      intro c hc
      obtain ⟨k, hk, hck⟩ := List.mem_iff_getElem.mp hc
      have hkcss : k < css.length := by omega
      have hgd : n.children.getD k 0 = c := by
        rw [List.getD_eq_getElem n.children 0 hk, hck]
      have hsub : ∀ j ∈ css.getD k [], h'[j]? = h[j]? := by
        intro j hj
        refine hag j ?_
        have hgd2 : css.getD k [] = css[k] :=
          List.getD_eq_getElem css [] hkcss
        exact List.mem_cons_of_mem i
          (List.mem_flatten.mpr ⟨css[k], List.getElem_mem hkcss, hgd2 ▸ hj⟩)
      have := ih k hk hsub g
      rwa [hgd] at this
    rw [hmapeq]

/-! ### Heap access and list surgery helpers -/

/-- Writing a cell leaves its length. -/
theorem setN_length {V : Type} (h : Heap V) (j : Nat) (n : Node V) :
    (setN h j n).length = h.length := List.length_set h j n

/-- Reading back a written cell. -/
theorem setN_get_self {V : Type} {h : Heap V} {j : Nat} (hj : j < h.length)
    (n : Node V) : (setN h j n)[j]? = some n :=
  List.getElem?_set_self hj

/-- Reading another cell after a write. -/
theorem setN_get_ne {V : Type} (h : Heap V) {j k : Nat} (hne : j ≠ k)
    (n : Node V) : (setN h j n)[k]? = h[k]? :=
  List.getElem?_set_ne hne

/-- Reading an old cell after an allocation. -/
theorem append_get_lt {V : Type} (h : Heap V) (x : Node V) {k : Nat}
    (hk : k < h.length) : (h ++ [x])[k]? = h[k]? := by
  rw [List.getElem?_append]
  exact if_pos hk

/-- Reading the allocated cell. -/
theorem append_get_last {V : Type} (h : Heap V) (x : Node V) :
    (h ++ [x])[h.length]? = some x :=
  List.getElem?_concat_length h x

/-- Length of `insertAt` on an in-range position. -/
theorem insertAt_length {α : Type u} (xs : List α) {i : Nat} (a : α)
    (hi : i ≤ xs.length) : (insertAt xs i a).length = xs.length + 1 := by
  unfold insertAt
  simp
  omega

/-- `insertAt` splits as take/cons/drop (definitional). -/
theorem insertAt_def {α : Type u} (xs : List α) (i : Nat) (a : α) :
    insertAt xs i a = xs.take i ++ a :: xs.drop i := rfl

/-- Replacing a middle chunk of a duplicate-free list by fresh-or-contained
material keeps it duplicate-free. -/
theorem nodup_mid_replace {X Y f cs : List Nat}
    (hnd : (X ++ (f ++ Y)).Nodup) (hcs : cs.Nodup)
    (hsub : ∀ x ∈ cs, x ∈ f ∨ (x ∉ X ∧ x ∉ f ∧ x ∉ Y)) :
    (X ++ (cs ++ Y)).Nodup := by
  rw [List.nodup_append] at hnd ⊢
  obtain ⟨hX, hfY, hdisj⟩ := hnd
  rw [List.nodup_append] at hfY
  obtain ⟨hf, hY, hfYdisj⟩ := hfY
  refine ⟨hX, ?_, ?_⟩
  · rw [List.nodup_append]
    refine ⟨hcs, hY, ?_⟩
    intro x hx hxY
    rcases hsub x hx with hxf | ⟨_, _, hnY⟩
    · exact hfYdisj hxf hxY
    · exact hnY hxY
  · intro x hxX hxcsY
    rcases List.mem_append.mp hxcsY with hxcs | hxY
    · rcases hsub x hxcs with hxf | ⟨hnX, _, _⟩
      · exact hdisj hxX (List.mem_append.mpr (Or.inl hxf))
      · exact hnX hxX
    · exact hdisj hxX (List.mem_append.mpr (Or.inr hxY))

/-- Flatten decomposed around position `k`. -/
theorem flatten_decomp {α : Type u} (css : List (List α)) (k : Nat)
    (hk : k < css.length) :
    css.flatten =
      (css.take k).flatten ++ (css[k] ++ (css.drop (k + 1)).flatten) := by
  have h1 : css = css.take k ++ css[k] :: css.drop (k + 1) := by
    conv_lhs => rw [(List.take_append_drop k css).symm]
    rw [List.drop_eq_getElem_cons hk]
  conv_lhs => rw [h1]
  rw [List.flatten_append, List.flatten_cons]

/-- `setParents` on live, distinct ids: sets exactly the `parent` fields of
the listed nodes. -/
theorem setParents_ok {V : Type} :
    ∀ (ids : List Nat) (h : Heap V) (p : Option Nat),
      (∀ c ∈ ids, c < h.length) → ids.Nodup →
      ∃ h2, setParents h ids p = .ok h2 ∧ h2.length = h.length ∧
        (∀ k, k ∉ ids → h2[k]? = h[k]?) ∧
        (∀ k ∈ ids, ∃ n, h[k]? = some n ∧
          h2[k]? = some { n with parent := p }) := by
  intro ids
  induction ids with
  | nil =>
    intro h p _ _
    exact ⟨h, rfl, rfl, fun _ _ => rfl, fun k hk => absurd hk (by simp)⟩
  | cons c cs ih =>
    intro h p hlt hnd
    have hc : c < h.length := hlt c (List.mem_cons_self c cs)
    have hn : h[c]? = some h[c] := List.getElem?_eq_getElem hc
    have hstep : setParents h (c :: cs) p =
        setParents (setN h c { h[c] with parent := p }) cs p := by
      unfold setParents
      rw [List.foldlM_cons, getN_eq_ok hn]
      rfl
    have hcs : c ∉ cs := (List.nodup_cons.mp hnd).1
    obtain ⟨h2, hrun, hlen, hout, hins⟩ :=
      ih (setN h c { h[c] with parent := p }) p
        (by
          intro x hx
          rw [setN_length]
          exact hlt x (List.mem_cons_of_mem c hx))
        (List.nodup_cons.mp hnd).2
    refine ⟨h2, by rw [hstep]; exact hrun, by rw [hlen, setN_length], ?_, ?_⟩
    · intro k hk
      rw [hout k (fun hmem => hk (List.mem_cons_of_mem c hmem)),
        setN_get_ne h (by rintro rfl; exact hk (List.mem_cons_self c cs)) _]
    · intro k hk
      rcases List.mem_cons.mp hk with rfl | hkcs
      · refine ⟨h[k], hn, ?_⟩
        rw [hout k hcs, setN_get_self hc]
      · obtain ⟨n, hn2, hn3⟩ := hins k hkcs
        refine ⟨n, ?_, hn3⟩
        rwa [setN_get_ne h (by rintro rfl; exact hcs hkcs) _] at hn2

/-- `normalizeChildren` is the identity on consistent nodes. -/
theorem normalizeChildren_ok {V : Type} {h : Heap V} {i : Nat}
    {n : Node V} (hn : h[i]? = some n)
    (hgood : n.isLeaf = true ∨ n.children.length = n.size + 1) :
    normalizeChildren h i = .ok h := by
  unfold normalizeChildren
  rw [getN_eq_ok hn]
  simp only [ok_bind]
  rcases hgood with hleaf | hcnt
  · rw [if_pos hleaf]
  · by_cases hleaf : n.isLeaf = true
    · rw [if_pos hleaf]
    · rw [if_neg hleaf, if_pos hcnt]

/-! ### Comparator and bound helpers -/

/-- The default comparator reports "below" exactly on `<`. -/
theorem defaultCmp_lt {a b : Int} : defaultCmp a b < 0 ↔ a < b := by
  unfold defaultCmp
  omega

/-- The default comparator reports "above" exactly on `>`. -/
theorem defaultCmp_gt {a b : Int} : defaultCmp a b > 0 ↔ b < a := by
  unfold defaultCmp
  omega

/-- The default comparator reports "equal" exactly on `=`. -/
theorem defaultCmp_eq {a b : Int} : defaultCmp a b = 0 ↔ a = b := by
  unfold defaultCmp
  omega

/-- A lower bound transfers upward. -/
theorem lbOk_mono {lo : Option Int} {a b : Int} (h1 : lbOk lo a)
    (h2 : a ≤ b) : lbOk lo b := by
  cases lo with
  | none => trivial
  | some x => exact le_trans h1 h2

/-- An upper bound transfers downward. -/
theorem ubOk_mono {hi : Option Int} {a b : Int} (h1 : ubOk hi a)
    (h2 : b ≤ a) : ubOk hi b := by
  cases hi with
  | none => trivial
  | some x => exact le_trans h2 h1

/-! ### Positional lemmas for `insertAt`, `take` and `drop` -/

/-- Reading below the insertion point. -/
theorem insertAt_get_lt {α : Type u} {xs : List α} {i j : Nat} (a : α)
    (hj : j < i) (hi : i ≤ xs.length) :
    (insertAt xs i a)[j]? = xs[j]? := by
  unfold insertAt
  have hjt : j < (xs.take i).length := by
    simp [List.length_take]
    omega
  rw [List.getElem?_append, if_pos hjt]
  have hjx : j < xs.length := by omega
  rw [List.getElem?_eq_getElem hjt, List.getElem?_eq_getElem hjx]
  exact congrArg some (List.getElem_take xs)

/-- Reading the insertion point. -/
theorem insertAt_get_self {α : Type u} {xs : List α} {i : Nat} (a : α)
    (hi : i ≤ xs.length) :
    (insertAt xs i a)[i]? = some a := by
  unfold insertAt
  have hlen : (xs.take i).length = i := by
    simp [List.length_take]
    omega
  rw [List.getElem?_append_right (by omega), hlen]
  simp

/-- Reading above the insertion point. -/
theorem insertAt_get_gt {α : Type u} {xs : List α} {i j : Nat} (a : α)
    (hj : i < j) (hi : i ≤ xs.length) :
    (insertAt xs i a)[j]? = xs[j - 1]? := by
  unfold insertAt
  have hlen : (xs.take i).length = i := by
    simp [List.length_take]
    omega
  rw [List.getElem?_append_right (by omega), hlen]
  have hji : j - i = (j - i - 1) + 1 := by omega
  rw [hji]
  simp only [List.getElem?_cons_succ, List.getElem?_drop]
  congr 1
  omega

/-- `insertAt` under a cons shifts the position. -/
theorem insertAt_cons_succ {α : Type u} (x : α) (xs : List α) (i : Nat)
    (a : α) : insertAt (x :: xs) (i + 1) a = x :: insertAt xs i a := by
  simp [insertAt]

/-- `insertAt` commutes with `map`. -/
theorem insertAt_map {α : Type u} {β : Type v} (f : α → β) (xs : List α)
    (i : Nat) (a : α) :
    (insertAt xs i a).map f = insertAt (xs.map f) i (f a) := by
  simp [insertAt, List.map_take, List.map_drop]

/-- `insertAt` confined to the left block of an append. -/
theorem insertAt_append_left {α : Type u} (xs ys : List α) {i : Nat}
    (a : α) (hi : i ≤ xs.length) :
    insertAt (xs ++ ys) i a = insertAt xs i a ++ ys := by
  unfold insertAt
  rw [List.take_append_of_le_length hi, List.drop_append_of_le_length hi]
  simp

/-- Members of `insertAt` are old members or the inserted element. -/
theorem mem_insertAt {α : Type u} {xs : List α} {i : Nat} {a x : α}
    (hx : x ∈ insertAt xs i a) : x ∈ xs ∨ x = a := by
  unfold insertAt at hx
  rcases List.mem_append.mp hx with h1 | h1
  · exact Or.inl (List.mem_of_mem_take h1)
  · rcases List.mem_cons.mp h1 with h2 | h2
    · exact Or.inr h2
    · exact Or.inl (List.mem_of_mem_drop h2)

/-- `insertAt` is a permutation of consing the new element. -/
theorem insertAt_perm {α : Type u} (xs : List α) (i : Nat) (a : α) :
    (insertAt xs i a).Perm (a :: xs) := by
  unfold insertAt
  have h1 : (xs.take i ++ a :: xs.drop i).Perm
      (a :: (xs.take i ++ xs.drop i)) := List.perm_middle
  rwa [List.take_append_drop] at h1

/-- Members of a take, positionally. -/
theorem mem_take_get {α : Type u} {xs : List α} {n : Nat} {x : α}
    (hx : x ∈ xs.take n) : ∃ j, j < n ∧ xs[j]? = some x := by
  obtain ⟨j, hj, hget⟩ := List.mem_iff_getElem.mp hx
  have hjn : j < n := by
    have := hj
    simp [List.length_take] at this
    omega
  have hjx : j < xs.length := by
    have := hj
    simp [List.length_take] at this
    omega
  refine ⟨j, hjn, ?_⟩
  rw [List.getElem?_eq_getElem hjx, ← List.getElem_take xs, hget]

/-- Members of a drop, positionally. -/
theorem mem_drop_get {α : Type u} {xs : List α} {n : Nat} {x : α}
    (hx : x ∈ xs.drop n) : ∃ j, n ≤ j ∧ xs[j]? = some x := by
  obtain ⟨j, hj, hget⟩ := List.mem_iff_getElem.mp hx
  refine ⟨n + j, by omega, ?_⟩
  rw [← List.getElem?_drop, List.getElem?_eq_getElem hj, hget]

/-- A sorted list compares correctly at any two positions. -/
theorem sorted_le_of_get {xs : List Int} (hs : xs.Sorted (· ≤ ·))
    {i j : Nat} (hij : i ≤ j) {a b : Int} (ha : xs[i]? = some a)
    (hb : xs[j]? = some b) : a ≤ b := by
  have hjx : j < xs.length := (List.getElem?_eq_some.mp hb).1
  have hix : i < xs.length := (List.getElem?_eq_some.mp ha).1
  have hav : xs[i] = a := by
    have := List.getElem?_eq_getElem hix
    rw [this] at ha
    exact Option.some.inj ha
  have hbv : xs[j] = b := by
    have := List.getElem?_eq_getElem hjx
    rw [this] at hb
    exact Option.some.inj hb
  rcases Nat.eq_or_lt_of_le hij with rfl | hlt
  · rw [← hav, ← hbv]
  · have := List.pairwise_iff_getElem.mp hs i j hix hjx hlt
    rw [hav, hbv] at this
    exact this

/-- Inserting a key at a correct scan position keeps the list sorted. -/
theorem sorted_insertAt {keys : List Int} (hs : keys.Sorted (· ≤ ·))
    {pos : Nat} {key : Int}
    (hbefore : ∀ j a, j < pos → keys[j]? = some a → a ≤ key)
    (hafter : ∀ j a, pos ≤ j → keys[j]? = some a → key ≤ a) :
    (insertAt keys pos key).Sorted (· ≤ ·) := by
  unfold insertAt
  rw [List.Sorted, List.pairwise_append]
  refine ⟨List.Pairwise.sublist (List.take_sublist pos keys) hs, ?_, ?_⟩
  · rw [List.pairwise_cons]
    refine ⟨?_, List.Pairwise.sublist (List.drop_sublist pos keys) hs⟩
    intro b hb
    obtain ⟨j, hj, hget⟩ := mem_drop_get hb
    exact hafter j b hj hget
  · intro a ha b hb
    obtain ⟨j, hj, hgeta⟩ := mem_take_get ha
    have hak : a ≤ key := hbefore j a hj hgeta
    rcases List.mem_cons.mp hb with rfl | hb2
    · exact hak
    · obtain ⟨j2, hj2, hgetb⟩ := mem_drop_get hb2
      exact le_trans hak (hafter j2 b hj2 hgetb)

/-! ### Splitting parallel zips -/

/-- A zip of equally long blocks splits blockwise. -/
theorem zip_append_eq {α : Type u} {β : Type v} (A B : List α)
    (C D : List β) (hlen : A.length = C.length) :
    (A ++ B).zip (C ++ D) = A.zip C ++ B.zip D :=
  List.zip_append hlen

/-- A zip of parallel lists splits around a middle position. -/
theorem zip_split_at {α : Type u} {β : Type v} {keys : List α}
    {vals : List β} {m : Nat} (hlen : vals.length = keys.length)
    (hm : m < keys.length) {k : α} {v : β} (hk : keys[m]? = some k)
    (hv : vals[m]? = some v) :
    keys.zip vals =
      (keys.take m).zip (vals.take m) ++
        (k, v) :: (keys.drop (m + 1)).zip (vals.drop (m + 1)) := by
  have hmv : m < vals.length := by omega
  have hkv : keys[m] = k := by
    rw [List.getElem?_eq_getElem hm] at hk
    exact Option.some.inj hk
  have hvv : vals[m] = v := by
    rw [List.getElem?_eq_getElem hmv] at hv
    exact Option.some.inj hv
  conv_lhs =>
    rw [← List.take_append_drop m keys, ← List.take_append_drop m vals]
  rw [zip_append_eq _ _ _ _ (by
      simp [List.length_take]
      omega),
    List.drop_eq_getElem_cons hm, List.drop_eq_getElem_cons hmv,
    List.zip_cons_cons, hkv, hvv]

/-- A take distributes over a zip. -/
theorem take_zip_eq {α : Type u} {β : Type v} :
    ∀ (n : Nat) (xs : List α) (ys : List β),
      (xs.zip ys).take n = (xs.take n).zip (ys.take n) := by
  intro n
  induction n with
  | zero => intro xs ys; rfl
  | succ n ih =>
    intro xs ys
    cases xs with
    | nil => rfl
    | cons x xs =>
      cases ys with
      | nil => rfl
      | cons y ys => simp [List.zip_cons_cons, List.take_succ_cons, ih]

/-- A drop distributes over a zip. -/
theorem drop_zip_eq {α : Type u} {β : Type v} :
    ∀ (n : Nat) (xs : List α) (ys : List β),
      (xs.zip ys).drop n = (xs.drop n).zip (ys.drop n) := by
  intro n
  induction n with
  | zero => intro xs ys; rfl
  | succ n ih =>
    intro xs ys
    cases xs with
    | nil => rfl
    | cons x xs =>
      cases ys with
      | nil =>
        simp [List.zip_nil_right]
      | cons y ys => simp [List.zip_cons_cons, List.drop_succ_cons, ih]

/-- Zipping two parallel insertions is inserting the pair. -/
theorem zip_insertAt {α : Type u} {β : Type v} {keys : List α}
    {vals : List β} {pos : Nat} (k : α) (v : β)
    (hlen : vals.length = keys.length) (hpos : pos ≤ keys.length) :
    (insertAt keys pos k).zip (insertAt vals pos v) =
      insertAt (keys.zip vals) pos (k, v) := by
  unfold insertAt
  rw [zip_append_eq _ _ _ _ (by
      simp [List.length_take]
      omega),
    List.zip_cons_cons, take_zip_eq, drop_zip_eq]

/-! ### Frame lemmas insensitive to the parent pointer -/

/-- `getD` through `getElem?`. -/
theorem getD_get {α : Type u} (xs : List α) (j : Nat) (dflt : α) :
    xs.getD j dflt = (xs[j]?).getD dflt :=
  List.getD_eq_getElem?_getD xs j dflt

/-- `sameNP` is reflexive. -/
theorem sameNP_refl {V : Type} (a : Node V) : sameNP a a :=
  ⟨rfl, rfl, rfl, rfl, rfl, rfl, rfl⟩

/-- `Inv` never reads the parent pointer: it transfers along any heap
change that only re-parents cells of its id list. -/
theorem Inv.frameP {V : Type} {d : Nat} {h h' : Heap V} :
    ∀ {i : Nat} {l : List Nat} {lo hi : Option Int}, Inv d h i l lo hi →
      (∀ j ∈ l, ∃ m m', h[j]? = some m ∧ h'[j]? = some m' ∧ sameNP m' m) →
      Inv d h' i l lo hi := by
  intro i l lo hi hv
  induction hv with
  | leaf i n lo hi h1 h2 h3 h4 h5 h6 h7 h8 h9 =>
    intro hag
    obtain ⟨m, m', hm, hm', hs⟩ := hag i (by simp)
    have hmn : m = n := Option.some.inj (hm.symm.trans h1)
    rw [hmn] at hs
    obtain ⟨e1, e2, e3, e4, e5, e6, e7⟩ := hs
    exact Inv.leaf i m' lo hi hm' (by rw [e4, h2]) (by rw [e3, h3])
      (by rw [e5, e1, h4]) (by rw [e2, e1]; exact h5)
      (by rw [e6, h6]) (by rw [e7, h7]) (by rw [e1]; exact h8)
      (by rw [e1]; exact h9)
  | node i n css lo hi h1 h2 h3 h4 h5 h6 h7 h8 h9 h10 h11 h12 ih =>
    intro hag
    obtain ⟨m, m', hm, hm', hs⟩ := hag i (by simp)
    have hmn : m = n := Option.some.inj (hm.symm.trans h1)
    rw [hmn] at hs
    obtain ⟨e1, e2, e3, e4, e5, e6, e7⟩ := hs
    refine Inv.node i m' css lo hi hm' (by rw [e4, h2]) (by rw [e5, e1]; exact h3)
      (by rw [e2, e1]; exact h4) (by rw [e3, e5]; exact h5)
      (by rw [e6, h6]) (by rw [e7, h7]) (by rw [e1]; exact h8)
      (by rw [e1]; exact h9) (by rw [e3, h10]) ?_ h12
    intro j hj
    rw [e3, e1]
    rw [e3] at hj
    refine ih j hj ?_
    intro j' hj'
    refine hag j' ?_
    have hjlen : j < css.length := by omega
    have hgd : css.getD j [] = css[j] := List.getD_eq_getElem css [] hjlen
    exact List.mem_cons_of_mem i
      (List.mem_flatten.mpr ⟨css[j], List.getElem_mem hjlen, hgd ▸ hj'⟩)

/-- `entriesF` never reads the parent pointer. -/
theorem entriesF_congrP {V : Type} {d : Nat} {h h' : Heap V} :
    ∀ {i : Nat} {l : List Nat} {lo hi : Option Int}, Inv d h i l lo hi →
      (∀ j ∈ l, ∃ m m', h[j]? = some m ∧ h'[j]? = some m' ∧ sameNP m' m) →
      ∀ fl, entriesF h' i fl = entriesF h i fl := by
  intro i l lo hi hv
  induction hv with
  | leaf i n lo hi h1 h2 h3 h4 h5 h6 h7 h8 h9 =>
    intro hag fl
    rcases fl with _ | g
    · rfl
    obtain ⟨m, m', hm, hm', hs⟩ := hag i (by simp)
    have hmn : m = n := Option.some.inj (hm.symm.trans h1)
    rw [hmn] at hs
    obtain ⟨e1, e2, _, e4, _, _, _⟩ := hs
    rw [entriesF_leaf h' i g m' hm' (by rw [e4, h2]),
      entriesF_leaf h i g n h1 h2, e1, e2]
  | node i n css lo hi h1 h2 h3 h4 h5 h6 h7 h8 h9 h10 h11 h12 ih =>
    intro hag fl
    rcases fl with _ | g
    · rfl
    obtain ⟨m, m', hm, hm', hs⟩ := hag i (by simp)
    have hmn : m = n := Option.some.inj (hm.symm.trans h1)
    rw [hmn] at hs
    obtain ⟨e1, e2, e3, e4, _, _, _⟩ := hs
    rw [entriesF_node h' i g m' hm' (by rw [e4, h2]),
      entriesF_node h i g n h1 h2, e1, e2, e3]
    have hmapeq : n.children.mapM (fun c => entriesF h' c g) =
        n.children.mapM (fun c => entriesF h c g) := by
      refine mapM_congr ?_
      intro c hc
      obtain ⟨k, hk, hck⟩ := List.mem_iff_getElem.mp hc
      have hkcss : k < css.length := by omega
      have hgd : n.children.getD k 0 = c := by
        rw [List.getD_eq_getElem n.children 0 hk, hck]
      have hsub : ∀ j ∈ css.getD k [], ∃ m m', h[j]? = some m ∧
          h'[j]? = some m' ∧ sameNP m' m := by
        intro j hj
        refine hag j ?_
        have hgd2 : css.getD k [] = css[k] :=
          List.getD_eq_getElem css [] hkcss
        exact List.mem_cons_of_mem i
          (List.mem_flatten.mpr ⟨css[k], List.getElem_mem hkcss, hgd2 ▸ hj⟩)
      have := ih k hk hsub g
      rwa [hgd] at this
    rw [hmapeq]

/-- `entriesN` is unchanged by heap changes outside a subtree's cells
(given enough room in the new heap). -/
theorem entriesN_congr {V : Type} {d : Nat} {h h' : Heap V} {i : Nat}
    {l : List Nat} {lo hi : Option Int} (hv : Inv d h i l lo hi)
    (hlen : h.length ≤ h'.length)
    (hag : ∀ j ∈ l, h'[j]? = h[j]?) : entriesN h' i = entriesN h i := by
  obtain ⟨es, hes⟩ := entriesF_exists hv
  have h1 : entriesF h i (h'.length + 1) = some es :=
    entriesF_mono h (by have := hv.length_le; omega) hes
  have h2 : entriesF h' i (h'.length + 1) = some es := by
    rw [entriesF_congr hv hag]
    exact h1
  have h3 : entriesF h i (h.length + 1) = some es :=
    entriesF_mono h (by have := hv.length_le; omega) hes
  unfold entriesN
  rw [h2, h3]

/-- `entriesN` is unchanged by re-parenting a subtree's cells. -/
theorem entriesN_congrP {V : Type} {d : Nat} {h h' : Heap V} {i : Nat}
    {l : List Nat} {lo hi : Option Int} (hv : Inv d h i l lo hi)
    (hlen : h.length ≤ h'.length)
    (hag : ∀ j ∈ l, ∃ m m', h[j]? = some m ∧ h'[j]? = some m' ∧
      sameNP m' m) : entriesN h' i = entriesN h i := by
  obtain ⟨es, hes⟩ := entriesF_exists hv
  have h1 : entriesF h i (h'.length + 1) = some es :=
    entriesF_mono h (by have := hv.length_le; omega) hes
  have h2 : entriesF h' i (h'.length + 1) = some es := by
    rw [entriesF_congrP hv hag]
    exact h1
  have h3 : entriesF h i (h.length + 1) = some es :=
    entriesF_mono h (by have := hv.length_le; omega) hes
  unfold entriesN
  rw [h2, h3]

/-! ### Inversion helpers for `Inv` -/

/-- The node fields every `Inv` constructor guarantees. -/
theorem Inv.fields {V : Type} {d : Nat} {h : Heap V} {i : Nat}
    {l : List Nat} {lo hi : Option Int} (hv : Inv d h i l lo hi)
    {n : Node V} (hn : h[i]? = some n) :
    n.size = n.keys.length ∧ n.values.length = n.keys.length ∧
      n.maxKeys = 2 * d - 1 ∧ n.minKeys = d - 1 ∧
      n.keys.Sorted (· ≤ ·) ∧ (∀ x ∈ n.keys, lbOk lo x ∧ ubOk hi x) := by
  cases hv with
  | leaf i n0 lo hi h1 h2 h3 h4 h5 h6 h7 h8 h9 =>
    obtain rfl : n0 = n := Option.some.inj (h1.symm.trans hn)
    exact ⟨h4, h5, h6, h7, h8, h9⟩
  | node i n0 css lo hi h1 h2 h3 h4 h5 h6 h7 h8 h9 h10 h11 h12 =>
    obtain rfl : n0 = n := Option.some.inj (h1.symm.trans hn)
    exact ⟨h3, h4, h6, h7, h8, h9⟩

/-- Inverting `Inv` at a leaf node. -/
theorem Inv.leaf_pieces {V : Type} {d : Nat} {h : Heap V} {i : Nat}
    {l : List Nat} {lo hi : Option Int} (hv : Inv d h i l lo hi)
    {n : Node V} (hn : h[i]? = some n) (hleaf : n.isLeaf = true) :
    l = [i] ∧ n.children = [] := by
  cases hv with
  | leaf i n0 lo hi h1 h2 h3 h4 h5 h6 h7 h8 h9 =>
    obtain rfl : n0 = n := Option.some.inj (h1.symm.trans hn)
    exact ⟨rfl, h3⟩
  | node i n0 css lo hi h1 h2 h3 h4 h5 h6 h7 h8 h9 h10 h11 h12 =>
    obtain rfl : n0 = n := Option.some.inj (h1.symm.trans hn)
    rw [hleaf] at h2
    cases h2

/-- Inverting `Inv` at an internal node. -/
theorem Inv.node_pieces {V : Type} {d : Nat} {h : Heap V} {i : Nat}
    {l : List Nat} {lo hi : Option Int} (hv : Inv d h i l lo hi)
    {n : Node V} (hn : h[i]? = some n) (hleaf : n.isLeaf = false) :
    ∃ css : List (List Nat), l = i :: css.flatten ∧
      n.children.length = n.size + 1 ∧
      css.length = n.children.length ∧
      (∀ j, j < n.children.length →
        Inv d h (n.children.getD j 0) (css.getD j [])
          ((lo :: n.keys.map some).getD j none)
          ((n.keys.map some ++ [hi]).getD j none)) ∧
      (i :: css.flatten).Nodup := by
  cases hv with
  | leaf i n0 lo hi h1 h2 h3 h4 h5 h6 h7 h8 h9 =>
    obtain rfl : n0 = n := Option.some.inj (h1.symm.trans hn)
    rw [hleaf] at h2
    cases h2
  | node i n0 css lo hi h1 h2 h3 h4 h5 h6 h7 h8 h9 h10 h11 h12 =>
    obtain rfl : n0 = n := Option.some.inj (h1.symm.trans hn)
    exact ⟨css, rfl, h5, h10, h11, h12⟩

/-! ### Closed forms for `entriesN` -/

/-- `entriesN` at a leaf. -/
theorem entriesN_leaf_eq {V : Type} (h : Heap V) (i : Nat) {n : Node V}
    (hn : h[i]? = some n) (hleaf : n.isLeaf = true) :
    entriesN h i = n.keys.zip n.values := by
  unfold entriesN
  rw [entriesF_leaf h i h.length n hn hleaf]
  rfl

/-- `entriesN` at a well-formed internal node. -/
theorem entriesN_node_eq {V : Type} {d : Nat} {h : Heap V} {i : Nat}
    {l : List Nat} {lo hi : Option Int} (hv : Inv d h i l lo hi)
    {n : Node V} (hn : h[i]? = some n) (hleaf : n.isLeaf = false) :
    entriesN h i =
      n.keys.zip n.values ++
        (n.children.map (fun c => entriesN h c)).flatten := by
  obtain ⟨css, hl, hcnt, hclen, hkids, hnd⟩ := hv.node_pieces hn hleaf
  have hlh : l.length ≤ h.length := hv.length_le
  have hpt : ∀ c ∈ n.children, entriesF h c h.length = some (entriesN h c)
      := by
    intro c hc
    obtain ⟨k, hk, hck⟩ := List.mem_iff_getElem.mp hc
    have hkcss : k < css.length := by omega
    have hgd : n.children.getD k 0 = c := by
      rw [List.getD_eq_getElem n.children 0 hk, hck]
    have hfl : (css.getD k []).length ≤ h.length := by
      have h1 : (css.getD k []).length ≤ css.flatten.length := by
        rw [List.getD_eq_getElem css [] hkcss]
        exact length_le_flatten css css[k] (List.getElem_mem hkcss)
      have h2 : css.flatten.length + 1 = l.length := by
        rw [hl]
        simp
      omega
    have := entriesF_eq_entriesN (hkids k hk) h.length hfl
    rwa [hgd] at this
  have hmap : n.children.mapM (fun c => entriesF h c h.length) =
      some (n.children.map (fun c => entriesN h c)) :=
    mapM_eq_map _ _ n.children hpt
  unfold entriesN
  rw [entriesF_node h i h.length n hn hleaf, hmap]
  rfl

/-- A duplicate-free list drawn from an old list plus a fresh range is
bounded in length. -/
theorem nodup_length_le {l' l : List Nat} {a b : Nat} (hnd : l'.Nodup)
    (hsub : ∀ x ∈ l', x ∈ l ∨ (a ≤ x ∧ x < b)) :
    l'.length ≤ l.length + (b - a) := by
  classical
  have hsub2 : l'.toFinset ⊆ l.toFinset ∪ Finset.Ico a b := by
    intro x hx
    rcases hsub x (List.mem_toFinset.mp hx) with h1 | h1
    · exact Finset.mem_union_left _ (List.mem_toFinset.mpr h1)
    · exact Finset.mem_union_right _ (Finset.mem_Ico.mpr h1)
  have h1 := Finset.card_le_card hsub2
  have h2 := Finset.card_union_le l.toFinset (Finset.Ico a b)
  rw [List.toFinset_card_of_nodup hnd] at h1
  have h3 : l.toFinset.card ≤ l.length := l.toFinset_card_le
  rw [Nat.card_Ico] at h2
  omega

/-! ### `getD` positional helpers -/

/-- `getD` of a take below the cut. -/
theorem getD_take_lt {α : Type u} {xs : List α} {n j : Nat} (dflt : α)
    (hj : j < n) : (xs.take n).getD j dflt = xs.getD j dflt := by
  rw [getD_get, getD_get, List.getElem?_take_of_lt hj]

/-- `getD` of a drop. -/
theorem getD_drop_eq {α : Type u} (xs : List α) (n j : Nat) (dflt : α) :
    (xs.drop n).getD j dflt = xs.getD (n + j) dflt := by
  rw [getD_get, getD_get, List.getElem?_drop]

/-- `getD` of an append, inside the left block. -/
theorem getD_append_lt {α : Type u} {xs : List α} (ys : List α) {j : Nat}
    (dflt : α) (hj : j < xs.length) :
    (xs ++ ys).getD j dflt = xs.getD j dflt := by
  rw [getD_get, getD_get, List.getElem?_append, if_pos hj]

/-- `getD` of an append, inside the right block. -/
theorem getD_append_right {α : Type u} {xs : List α} (ys : List α) {j : Nat}
    (dflt : α) (hj : xs.length ≤ j) :
    (xs ++ ys).getD j dflt = ys.getD (j - xs.length) dflt := by
  rw [getD_get, getD_get, List.getElem?_append, if_neg (by omega)]

/-- `getD` through a `map some`. -/
theorem getD_map_some {α : Type u} (xs : List α) {j : Nat} {a : α}
    (hj : xs[j]? = some a) : (xs.map some).getD j none = some a := by
  rw [getD_get, List.getElem?_map, hj]
  rfl

/-! ### Multiset bookkeeping over list concatenations -/

/-- Splitting a list around a distinguished middle element, in multiset
form. -/
theorem multiset_split3 {α : Type u} (A B : List α) (m : α) :
    (↑A : Multiset α) + ↑B + {m} = ↑(A ++ m :: B) := by
  have h1 : (↑(A ++ m :: B) : Multiset α) = ↑A + (m ::ₘ ↑B) := rfl
  have h2 : (m ::ₘ (↑B : Multiset α)) = {m} + ↑B := rfl
  rw [h1, h2]
  abel

/-- Splitting two interleaved blocks around a middle element, in multiset
form. -/
theorem multiset_split5 {α : Type u} (A B C D : List α) (m : α) :
    (↑(A ++ C) : Multiset α) + ↑(B ++ D) + {m} =
      ↑((A ++ m :: B) ++ (C ++ D)) := by
  have h1 : (↑(A ++ C) : Multiset α) = ↑A + ↑C := rfl
  have h2 : (↑(B ++ D) : Multiset α) = ↑B + ↑D := rfl
  have h3 : (↑((A ++ m :: B) ++ (C ++ D)) : Multiset α) =
      ↑A + ({m} + ↑B) + (↑C + ↑D) := rfl
  rw [h1, h2, h3]
  abel

/-! ### Splitting a full subtree -/

/-- Restriction of a whole-subtree agreement to one child's cells. -/
theorem split_frame_sub {V : Type} {h h₂ : Heap V} {cId : Nat}
    {lc : List Nat}
    (hframe : ∀ k ∈ lc, k ≠ cId → ∃ m m', h[k]? = some m ∧
      h₂[k]? = some m' ∧ sameNP m' m)
    {css_c : List (List Nat)} (hlc : lc = cId :: css_c.flatten)
    (hnd : (cId :: css_c.flatten).Nodup) {j : Nat} (hj : j < css_c.length) :
    ∀ k ∈ css_c.getD j [], ∃ m m', h[k]? = some m ∧ h₂[k]? = some m' ∧
      sameNP m' m := by
  intro k hk
  have hkfl : k ∈ css_c.flatten := by
    rw [List.getD_eq_getElem css_c [] hj] at hk
    exact List.mem_flatten.mpr ⟨css_c[j], List.getElem_mem hj, hk⟩
  have hne : k ≠ cId := by
    rintro rfl
    exact (List.nodup_cons.mp hnd).1 hkfl
  exact hframe k (by rw [hlc]; exact List.mem_cons_of_mem _ hkfl) hne

/-- Splitting a full subtree around its median in any heap that holds the
truncated child, the upper-half sibling, and otherwise agrees on the
subtree's cells up to re-parenting: both halves are well-formed subtrees
with the median as the separating bound, and together with the median they
carry exactly the original entries. -/
theorem Inv.split {V : Type} {d : Nat} {h : Heap V} {cId : Nat}
    {lc : List Nat} {clo chi : Option Int}
    (hv : Inv d h cId lc clo chi)
    {cd : Node V} (hcd : h[cId]? = some cd)
    (hd : 2 ≤ d) (hklen : cd.keys.length = 2 * d - 1)
    {newId : Nat} (hnew : h.length ≤ newId)
    {pp : Option Nat} {h₂ : Heap V} (hlen2 : h.length ≤ h₂.length)
    (hc2 : h₂[cId]? = some
      { cd with
        keys := cd.keys.take (d - 1)
        values := cd.values.take (d - 1)
        size := d - 1
        children := if cd.isLeaf then cd.children else cd.children.take d })
    (hs2 : h₂[newId]? = some
      { keys := (cd.keys.drop d).take (d - 1)
        values := (cd.values.drop d).take (d - 1)
        children := if cd.isLeaf then [] else cd.children.drop d
        isLeaf := cd.isLeaf
        parent := pp
        size := d - 1
        maxKeys := 2 * d - 1
        minKeys := d - 1 })
    (hframe : ∀ k ∈ lc, k ≠ cId → ∃ m m', h[k]? = some m ∧
      h₂[k]? = some m' ∧ sameNP m' m) :
    ∃ lcL lcH mk mv,
      cd.keys[d - 1]? = some mk ∧ cd.values[d - 1]? = some mv ∧
      Inv d h₂ cId lcL clo (some mk) ∧
      Inv d h₂ newId lcH (some mk) chi ∧
      lcL.head? = some cId ∧ lcH.head? = some newId ∧
      (∀ x ∈ lcL ++ lcH, x ∈ lc ∨ x = newId) ∧
      (lcL ++ lcH).Nodup ∧
      lcL.length + lcH.length = lc.length + 1 ∧
      lcL.length ≤ lc.length ∧ lcH.length ≤ lc.length ∧
      (entriesN h₂ cId : Multiset (Int × V)) +
          (entriesN h₂ newId : Multiset (Int × V)) + {(mk, mv)} =
        (entriesN h cId : Multiset (Int × V)) := by
  obtain ⟨hsz, hvlen, hmax, hmin, hsort, hbnds⟩ := hv.fields hcd
  have hdm : d - 1 < cd.keys.length := by omega
  have hdmv : d - 1 < cd.values.length := by omega
  obtain ⟨mk, hmk⟩ : ∃ mk, cd.keys[d - 1]? = some mk :=
    ⟨_, List.getElem?_eq_getElem hdm⟩
  obtain ⟨mv, hmv⟩ : ∃ mv, cd.values[d - 1]? = some mv :=
    ⟨_, List.getElem?_eq_getElem hdmv⟩
  have hcIdlt : cId < h.length := (List.getElem?_eq_some.mp hcd).1
  have hdk : (cd.keys.drop d).take (d - 1) = cd.keys.drop d :=
    List.take_of_length_le (by
      simp [List.length_drop]
      omega)
  have hdv : (cd.values.drop d).take (d - 1) = cd.values.drop d :=
    List.take_of_length_le (by
      simp [List.length_drop]
      omega)
  have hsplitzip : cd.keys.zip cd.values =
      (cd.keys.take (d - 1)).zip (cd.values.take (d - 1)) ++
        (mk, mv) :: (cd.keys.drop d).zip (cd.values.drop d) := by
    have := zip_split_at hvlen hdm hmk hmv
    rw [show d - 1 + 1 = d by omega] at this
    exact this
  have hLbnd : ∀ x ∈ cd.keys.take (d - 1), lbOk clo x ∧ ubOk (some mk) x
      := by
    intro x hx
    obtain ⟨j, hj, hget⟩ := mem_take_get hx
    exact ⟨(hbnds x (List.mem_of_mem_take hx)).1,
      sorted_le_of_get hsort (by omega) hget hmk⟩
  have hHbnd : ∀ x ∈ cd.keys.drop d, lbOk (some mk) x ∧ ubOk chi x := by
    intro x hx
    obtain ⟨j, hj, hget⟩ := mem_drop_get hx
    exact ⟨sorted_le_of_get hsort (by omega) hmk hget,
      (hbnds x (List.mem_of_mem_drop hx)).2⟩
  rcases hcl : cd.isLeaf with _ | _
  case true =>
    obtain ⟨hlc, hchn⟩ := hv.leaf_pieces hcd hcl
    rw [if_pos hcl] at hc2
    rw [hdk, hdv, if_pos hcl] at hs2
    have hInvL : Inv d h₂ cId [cId] clo (some mk) :=
      Inv.leaf cId _ clo (some mk) hc2 hcl hchn
        (by
          simp [List.length_take]
          omega)
        (by
          simp [List.length_take, hvlen])
        hmax hmin
        (List.Pairwise.sublist (List.take_sublist _ _) hsort) hLbnd
    have hInvH : Inv d h₂ newId [newId] (some mk) chi :=
      Inv.leaf newId _ (some mk) chi hs2 hcl rfl
        (by
          simp [List.length_drop]
          omega)
        (by
          simp [List.length_drop, hvlen])
        rfl rfl (List.Pairwise.sublist (List.drop_sublist _ _) hsort) hHbnd
    have hEL : entriesN h₂ cId =
        (cd.keys.take (d - 1)).zip (cd.values.take (d - 1)) :=
      entriesN_leaf_eq h₂ cId hc2 hcl
    have hEH : entriesN h₂ newId =
        (cd.keys.drop d).zip (cd.values.drop d) :=
      entriesN_leaf_eq h₂ newId hs2 hcl
    have hEF : entriesN h cId = cd.keys.zip cd.values :=
      entriesN_leaf_eq h cId hcd hcl
    refine ⟨[cId], [newId], mk, mv, hmk, hmv, hInvL, hInvH, rfl, rfl,
      ?_, ?_, by simp [hlc], by simp [hlc], by simp [hlc], ?_⟩
    · intro x hx
      rcases List.mem_cons.mp hx with rfl | hx2
      · exact Or.inl (by rw [hlc]; exact List.mem_cons_self _ _)
      · rcases List.mem_singleton.mp hx2 with rfl
        exact Or.inr rfl
    · refine List.nodup_cons.mpr ⟨?_, List.nodup_cons.mpr ⟨by simp,
        List.nodup_nil⟩⟩
      intro hmem
      rcases List.mem_singleton.mp hmem with rfl
      omega
    · rw [hEL, hEH, hEF, hsplitzip]
      exact multiset_split3 _ _ _
  case false =>
    obtain ⟨css_c, hlc, hcnt, hclen, hkids, hnd⟩ := hv.node_pieces hcd hcl
    have hch2 : cd.children.length = 2 * d := by omega
    have hcss2 : css_c.length = 2 * d := by omega
    rw [if_neg (by rw [hcl]; exact Bool.false_ne_true)] at hc2
    rw [hdk, hdv, if_neg (by rw [hcl]; exact Bool.false_ne_true)] at hs2
    have hmemlt : ∀ k ∈ css_c.flatten, k < h.length := by
      intro k hk
      exact hv.mem_lt k (by rw [hlc]; exact List.mem_cons_of_mem _ hk)
    have hflsplit : css_c.flatten =
        (css_c.take d).flatten ++ (css_c.drop d).flatten := by
      conv_lhs => rw [← List.take_append_drop d css_c]
      rw [List.flatten_append]
    have hndf : (cId :: ((css_c.take d).flatten ++
        (css_c.drop d).flatten)).Nodup := by
      rw [← hflsplit]
      exact hnd
    obtain ⟨hcfl, hflnd⟩ := List.nodup_cons.mp hndf
    obtain ⟨hndL, hndH, hdisjLH⟩ := List.nodup_append.mp hflnd
    have hkidsL : ∀ j, j < (cd.children.take d).length →
        Inv d h₂ ((cd.children.take d).getD j 0) ((css_c.take d).getD j [])
          ((clo :: (cd.keys.take (d - 1)).map some).getD j none)
          (((cd.keys.take (d - 1)).map some ++ [some mk]).getD j none)
        := by
      intro j hj
      have hjd : j < d := by
        simp [List.length_take] at hj
        omega
      have hj2 : j < cd.children.length := by omega
      have e1 : (cd.children.take d).getD j 0 = cd.children.getD j 0 :=
        getD_take_lt 0 hjd
      have e2 : (css_c.take d).getD j [] = css_c.getD j [] :=
        getD_take_lt [] hjd
      have e3 : (clo :: (cd.keys.take (d - 1)).map some).getD j none =
          (clo :: cd.keys.map some).getD j none := by
        cases j with
        | zero => rfl
        | succ jj =>
          rw [List.getD_cons_succ, List.getD_cons_succ, List.map_take,
            getD_take_lt none (by omega)]
      have e4 : (((cd.keys.take (d - 1)).map some) ++ [some mk]).getD j
          none = (cd.keys.map some ++ [chi]).getD j none := by
        have hlenL : ((cd.keys.take (d - 1)).map some).length = d - 1 := by
          simp [List.length_take]
          omega
        rcases Nat.lt_or_ge j (d - 1) with hlt | hge
        · rw [getD_append_lt _ none (by omega), getD_append_lt _ none (by
            simp
            omega), List.map_take, getD_take_lt none (by omega)]
        · have hjd1 : j = d - 1 := by omega
          subst hjd1
          rw [getD_append_right _ none (by omega),
            getD_append_lt _ none (by
              simp
              omega), hlenL]
          simp only [Nat.sub_self, List.getD_cons_zero]
          rw [getD_map_some cd.keys hmk]
      rw [e1, e2, e3, e4]
      exact Inv.frameP (hkids j hj2)
        (split_frame_sub hframe hlc hnd (by omega))
    have hkidsH : ∀ j, j < (cd.children.drop d).length →
        Inv d h₂ ((cd.children.drop d).getD j 0) ((css_c.drop d).getD j [])
          ((some mk :: (cd.keys.drop d).map some).getD j none)
          (((cd.keys.drop d).map some ++ [chi]).getD j none) := by
      intro j hj
      have hjd : j < d := by
        simp [List.length_drop] at hj
        omega
      have hj2 : d + j < cd.children.length := by omega
      have e1 : (cd.children.drop d).getD j 0 = cd.children.getD (d + j) 0
          := getD_drop_eq _ _ _ _
      have e2 : (css_c.drop d).getD j [] = css_c.getD (d + j) [] :=
        getD_drop_eq _ _ _ _
      have e3 : (some mk :: (cd.keys.drop d).map some).getD j none =
          (clo :: cd.keys.map some).getD (d + j) none := by
        cases j with
        | zero =>
          rw [List.getD_cons_zero, show d + 0 = (d - 1) + 1 by omega,
            List.getD_cons_succ, getD_map_some cd.keys hmk]
        | succ jj =>
          rw [List.getD_cons_succ, show d + (jj + 1) = (d + jj) + 1 by
            omega, List.getD_cons_succ, List.map_drop,
            getD_drop_eq]
      have e4 : (((cd.keys.drop d).map some) ++ [chi]).getD j none =
          (cd.keys.map some ++ [chi]).getD (d + j) none := by
        have hlenH : ((cd.keys.drop d).map some).length = d - 1 := by
          simp [List.length_drop]
          omega
        rcases Nat.lt_or_ge j (d - 1) with hlt | hge
        · rw [getD_append_lt _ none (by omega), getD_append_lt _ none (by
            simp
            omega), List.map_drop, getD_drop_eq]
        · have hjd1 : j = d - 1 := by omega
          subst hjd1
          rw [getD_append_right _ none (by omega),
            getD_append_right _ none (by
              simp
              omega), hlenH]
          congr 1
          simp
          omega
      rw [e1, e2, e3, e4]
      exact Inv.frameP (hkids (d + j) hj2)
        (split_frame_sub hframe hlc hnd (by omega))
    have hInvL : Inv d h₂ cId (cId :: (css_c.take d).flatten) clo (some mk)
        :=
      Inv.node cId _ (css_c.take d) clo (some mk) hc2 hcl
        (by
          simp [List.length_take]
          omega)
        (by
          simp [List.length_take, hvlen])
        (by
          simp [List.length_take]
          omega)
        hmax hmin (List.Pairwise.sublist (List.take_sublist _ _) hsort)
        hLbnd
        (by
          simp [List.length_take]
          omega)
        hkidsL (List.nodup_cons.mpr ⟨by
          intro hmem
          exact hcfl (List.mem_append.mpr (Or.inl hmem)), hndL⟩)
    have hInvH : Inv d h₂ newId (newId :: (css_c.drop d).flatten) (some mk)
        chi :=
      Inv.node newId _ (css_c.drop d) (some mk) chi hs2 hcl
        (by
          simp [List.length_drop]
          omega)
        (by
          simp [List.length_drop, hvlen])
        (by
          simp [List.length_drop]
          omega)
        rfl rfl (List.Pairwise.sublist (List.drop_sublist _ _) hsort)
        hHbnd
        (by
          simp [List.length_drop]
          omega)
        hkidsH (List.nodup_cons.mpr ⟨by
          intro hmem
          have := hmemlt newId (hflsplit ▸ List.mem_append.mpr
            (Or.inr hmem))
          omega, hndH⟩)
    have hEL2 : entriesN h₂ cId =
        (cd.keys.take (d - 1)).zip (cd.values.take (d - 1)) ++
          ((cd.children.take d).map (fun c => entriesN h c)).flatten := by
      rw [entriesN_node_eq hInvL hc2 hcl]
      congr 1
      refine congrArg List.flatten (List.map_eq_map_iff.mpr ?_)
      intro c hc
      obtain ⟨j, hjd, hget⟩ := mem_take_get hc
      have hj2 : j < cd.children.length := by omega
      have hgd : cd.children.getD j 0 = c := by
        rw [getD_get, hget]
        rfl
      rw [← hgd]
      exact entriesN_congrP (hkids j hj2) hlen2
        (split_frame_sub hframe hlc hnd (by omega))
    have hEH2 : entriesN h₂ newId =
        (cd.keys.drop d).zip (cd.values.drop d) ++
          ((cd.children.drop d).map (fun c => entriesN h c)).flatten := by
      rw [entriesN_node_eq hInvH hs2 hcl]
      congr 1
      refine congrArg List.flatten (List.map_eq_map_iff.mpr ?_)
      intro c hc
      obtain ⟨j, hjd, hget⟩ := mem_drop_get hc
      have hj2 : j < cd.children.length := (List.getElem?_eq_some.mp
        hget).1
      have hgd : cd.children.getD j 0 = c := by
        rw [getD_get, hget]
        rfl
      rw [← hgd]
      exact entriesN_congrP (hkids j hj2) hlen2
        (split_frame_sub hframe hlc hnd (by omega))
    have hEF2 : entriesN h cId =
        ((cd.keys.take (d - 1)).zip (cd.values.take (d - 1)) ++
          (mk, mv) :: (cd.keys.drop d).zip (cd.values.drop d)) ++
          (((cd.children.take d).map (fun c => entriesN h c)).flatten ++
            ((cd.children.drop d).map (fun c => entriesN h c)).flatten)
        := by
      rw [entriesN_node_eq hv hcd hcl, hsplitzip]
      congr 1
      conv_lhs => rw [← List.take_append_drop d cd.children]
      rw [List.map_append, List.flatten_append]
    refine ⟨cId :: (css_c.take d).flatten, newId :: (css_c.drop d).flatten,
      mk, mv, hmk, hmv, hInvL, hInvH, rfl, rfl, ?_, ?_, ?_, ?_, ?_, ?_⟩
    · intro x hx
      rcases List.mem_append.mp hx with hx1 | hx1
      · rcases List.mem_cons.mp hx1 with rfl | hx2
        · exact Or.inl (by rw [hlc]; exact List.mem_cons_self _ _)
        · exact Or.inl (by
            rw [hlc]
            exact List.mem_cons_of_mem _ (hflsplit ▸ List.mem_append.mpr
              (Or.inl hx2)))
      · rcases List.mem_cons.mp hx1 with rfl | hx2
        · exact Or.inr rfl
        · exact Or.inl (by
            rw [hlc]
            exact List.mem_cons_of_mem _ (hflsplit ▸ List.mem_append.mpr
              (Or.inr hx2)))
    · rw [List.nodup_append]
      refine ⟨List.nodup_cons.mpr ⟨fun hmem => hcfl
        (List.mem_append.mpr (Or.inl hmem)), hndL⟩,
        List.nodup_cons.mpr ⟨fun hmem => by
          have := hmemlt newId (hflsplit ▸ List.mem_append.mpr
            (Or.inr hmem))
          omega, hndH⟩, ?_⟩
      intro x hx hx2
      rcases List.mem_cons.mp hx with rfl | hxA
      · rcases List.mem_cons.mp hx2 with rfl | hxB
        · omega
        · exact hcfl (List.mem_append.mpr (Or.inr hxB))
      · rcases List.mem_cons.mp hx2 with rfl | hxB
        · have := hmemlt x (hflsplit ▸ List.mem_append.mpr (Or.inl hxA))
          omega
        · exact hdisjLH hxA hxB
    · have h1 : css_c.flatten.length =
          (css_c.take d).flatten.length + (css_c.drop d).flatten.length
          := by
        rw [hflsplit, List.length_append]
      rw [hlc]
      simp only [List.length_cons, List.length_append] at h1 ⊢
      omega
    · have h1 : css_c.flatten.length =
          (css_c.take d).flatten.length + (css_c.drop d).flatten.length
          := by
        rw [hflsplit, List.length_append]
      rw [hlc]
      simp only [List.length_cons]
      omega
    · have h1 : css_c.flatten.length =
          (css_c.take d).flatten.length + (css_c.drop d).flatten.length
          := by
        rw [hflsplit, List.length_append]
      rw [hlc]
      simp only [List.length_cons]
      omega
    · rw [hEL2, hEH2, hEF2]
      exact multiset_split5 _ _ _ _ _

/-! ### `getD` forms of the positional insertion lemmas -/

/-- `getD` below an insertion point. -/
theorem getD_insertAt_lt {α : Type u} {xs : List α} {i j : Nat} (a : α)
    (dflt : α) (hj : j < i) (hi : i ≤ xs.length) :
    (insertAt xs i a).getD j dflt = xs.getD j dflt := by
  rw [getD_get, getD_get, insertAt_get_lt a hj hi]

/-- `getD` at an insertion point. -/
theorem getD_insertAt_self {α : Type u} {xs : List α} {i : Nat} (a : α)
    (dflt : α) (hi : i ≤ xs.length) :
    (insertAt xs i a).getD i dflt = a := by
  rw [getD_get, insertAt_get_self a hi]
  rfl

/-- `getD` above an insertion point. -/
theorem getD_insertAt_gt {α : Type u} {xs : List α} {i j : Nat} (a : α)
    (dflt : α) (hj : i < j) (hi : i ≤ xs.length) :
    (insertAt xs i a).getD j dflt = xs.getD (j - 1) dflt := by
  rw [getD_get, getD_get, insertAt_get_gt a hj hi]

/-- `getD` at an overwritten position. -/
theorem getD_set_self {α : Type u} {xs : List α} {j : Nat} (a : α)
    (dflt : α) (hj : j < xs.length) :
    (xs.set j a).getD j dflt = a := by
  rw [getD_get, List.getElem?_set_self hj]
  rfl

/-- `getD` away from an overwritten position. -/
theorem getD_set_ne {α : Type u} {xs : List α} {j k : Nat} (a : α)
    (dflt : α) (hne : j ≠ k) :
    (xs.set j a).getD k dflt = xs.getD k dflt := by
  rw [getD_get, getD_get, List.getElem?_set_ne hne]

/-- Components of a duplicate-free flatten are pairwise disjoint. -/
theorem flatten_nodup_disjoint {α : Type u} {css : List (List α)}
    (hnd : css.flatten.Nodup) {i j : Nat} (hij : i < j)
    (hj : j < css.length) : ∀ x ∈ css[i], x ∉ css[j] := by
  intro x hxi hxj
  have hi : i < css.length := by omega
  have hdec := flatten_decomp css i hi
  rw [hdec] at hnd
  obtain ⟨_, hmid, _⟩ := List.nodup_append.mp hnd
  obtain ⟨_, _, hdisj⟩ := List.nodup_append.mp hmid
  refine hdisj hxi ?_
  have hjd : j - (i + 1) < (css.drop (i + 1)).length := by
    simp [List.length_drop]
    omega
  have hjget : (css.drop (i + 1))[j - (i + 1)] = css[j] := by
    rw [List.getElem_drop]
    congr 1
    omega
  exact List.mem_flatten.mpr ⟨css[j], hjget ▸ List.getElem_mem hjd, hxj⟩

/-- The child pointers of a node whose subtrees have duplicate-free
combined id lists are pairwise distinct. -/
theorem children_nodup {V : Type} {d : Nat} {h : Heap V}
    {children : List Nat} {css : List (List Nat)}
    (hclen : css.length = children.length)
    (hkids : ∀ j, j < children.length → ∃ lo hi,
      Inv d h (children.getD j 0) (css.getD j []) lo hi)
    (hnd : css.flatten.Nodup) : children.Nodup := by
  rw [List.nodup_iff_getElem?_ne_getElem?]
  intro i j hij hj
  obtain ⟨loi, hii, hvi⟩ := hkids i (by omega)
  obtain ⟨loj, hjj, hvj⟩ := hkids j hj
  have hi : i < children.length := by omega
  have hgi : children.getD i 0 = children[i] :=
    List.getD_eq_getElem children 0 hi
  have hgj : children.getD j 0 = children[j] :=
    List.getD_eq_getElem children 0 hj
  have hci : css.getD i [] = css[i] := List.getD_eq_getElem css [] (by omega)
  have hcj : css.getD j [] = css[j] := List.getD_eq_getElem css [] (by omega)
  rw [hgi, hci] at hvi
  rw [hgj, hcj] at hvj
  rw [List.getElem?_eq_getElem hi, List.getElem?_eq_getElem hj]
  intro heq
  have heq2 : children[i] = children[j] := Option.some.inj heq
  refine flatten_nodup_disjoint hnd hij (by omega) children[i] hvi.self_mem
    ?_
  rw [heq2]
  exact hvj.self_mem

/-- Inserting right after a position, decomposed. -/
theorem insertAt_mid_decomp {α : Type u} {xs : List α} {index : Nat}
    {c : α} (hc : xs[index]? = some c) (y : α) :
    insertAt xs (index + 1) y =
      xs.take index ++ c :: y :: xs.drop (index + 1) := by
  have hlt : index < xs.length := (List.getElem?_eq_some.mp hc).1
  have hcv : xs[index] = c := by
    rw [List.getElem?_eq_getElem hlt] at hc
    exact Option.some.inj hc
  have hdec : xs = xs.take index ++ c :: xs.drop (index + 1) := by
    conv_lhs => rw [← List.take_append_drop index xs]
    rw [List.drop_eq_getElem_cons hlt, hcv]
  have hlenA : (xs.take index).length = index := by
    simp [List.length_take]
    omega
  have htk : (xs.take index).take (index + 1) = xs.take index :=
    List.take_of_length_le (by rw [hlenA]; omega)
  have hdr : (xs.take index).drop (index + 1) = [] :=
    List.drop_eq_nil_of_le (by rw [hlenA]; omega)
  unfold insertAt
  conv_lhs => rw [hdec]
  rw [List.take_append_eq_append_take, List.drop_append_eq_append_drop,
    htk, hdr, hlenA, show index + 1 - index = 1 from by omega]
  simp

/-- Overwriting a position and inserting right after it, decomposed. -/
theorem insertAt_set_decomp {α : Type u} {xs : List α} {index : Nat}
    (hidx : index < xs.length) (x y : α) :
    insertAt (xs.set index x) (index + 1) y =
      xs.take index ++ x :: y :: xs.drop (index + 1) := by
  have hset : xs.set index x = xs.take index ++ x :: xs.drop (index + 1) :=
    List.set_eq_take_cons_drop x hidx
  have hget : (xs.set index x)[index]? = some x :=
    List.getElem?_set_self (by omega)
  have hlenA : (xs.take index).length = index := by
    simp [List.length_take]
    omega
  have htk : (xs.take index).take index = xs.take index :=
    List.take_of_length_le (by rw [hlenA])
  have hdr : (xs.take index).drop (index + 1) = [] :=
    List.drop_eq_nil_of_le (by rw [hlenA]; omega)
  rw [insertAt_mid_decomp hget y, hset, List.take_append_eq_append_take,
    List.drop_append_eq_append_drop, hlenA, Nat.sub_self, htk, hdr,
    show index + 1 - index = 1 from by omega]
  simp

end EBT
